import Mathlib

/-
  Verification development for the SSA GPU shader compiler backend
  (divergence analysis, liveness/occupancy, spilling, register allocation,
  bool-phi lowering, assembler).  All definitions are shallow embeddings of
  the C/C++ sources; theorems check the specification's claims against them.
-/

set_option maxRecDepth 4000

namespace Aco

/-! ## Data model, from aco_ir.h -/

/-- Register classes from aco_ir.h: the enum encodes the size in dwords in the
low five bits and sets bit 5 for vector (vgpr) classes; `b` (value 0) is the
1-bit scalar condition code class. -/
inductive RegClass
  | b | s1 | s2 | s3 | s4 | s8 | s16 | v1 | v2 | v3 | v4 | v6
  deriving DecidableEq, Repr

/-- Numeric value of the RegClass enum constant, exactly as in aco_ir.h. -/
def RegClass.val : RegClass → Nat
  | .b => 0
  | .s1 => 1
  | .s2 => 2
  | .s3 => 3
  | .s4 => 4
  | .s8 => 8
  | .s16 => 16
  | .v1 => 1 ||| 32
  | .v2 => 2 ||| 32
  | .v3 => 3 ||| 32
  | .v4 => 4 ||| 32
  | .v6 => 6 ||| 32

/-- Register bank of a value: scc (condition code), scalar or vector. -/
inductive RegType
  | scc | sgpr | vgpr
  deriving DecidableEq, Repr

/-- Embeds `typeOf` from aco_ir.h: `b` is scc, values up to s16 are sgpr,
the rest vgpr. -/
def typeOf (rc : RegClass) : RegType :=
  if rc.val = 0 then .scc
  else if rc.val ≤ 16 then .sgpr
  else .vgpr

/-- Embeds `sizeOf` from aco_ir.h: size in dwords is the low five bits. -/
def sizeOf (rc : RegClass) : Nat := rc.val &&& 0x1F

/-- Temp from aco_ir.h: an SSA id together with a register class. -/
structure Temp where
  id : Nat
  rc : RegClass
  deriving DecidableEq, Repr

/-! ## Operand, from aco_ir.h

The C++ `Operand` class has four constructors; we embed it as an inductive
with one constructor per C++ constructor.  The constant constructor's
register assignment (`Operand(uint32_t)`) is embedded as `constReg`. -/

/-- Embeds the register chosen by the `Operand(uint32_t v)` constructor in
aco_ir.h: values 0..64 map to register 128+v, the uint32 range
0xFFFFFFF0..0xFFFFFFFF (two's-complement -16..-1) maps to `192 - v` in
uint32 arithmetic (registers 193..208), the nine special float bit patterns
map to 240..248, and everything else is a literal at register 255.
The argument is a uint32, so subtraction is modulo 2^32. -/
def constReg (v : Nat) : Nat :=
  if v ≤ 64 then 128 + v
  else if 0xFFFFFFF0 ≤ v then (192 + 2 ^ 32 - v) % 2 ^ 32
  else if v = 0x3f000000 then 240      -- 0.5
  else if v = 0xbf000000 then 241      -- -0.5
  else if v = 0x3f800000 then 242      -- 1.0
  else if v = 0xbf800000 then 243      -- -1.0
  else if v = 0x40000000 then 244      -- 2.0
  else if v = 0xc0000000 then 245      -- -2.0
  else if v = 0x40800000 then 246      -- 4.0
  else if v = 0xc0800000 then 247      -- -4.0
  else if v = 0x3e22f983 then 248      -- 1/(2*PI)
  else 255                             -- literal constant

/-- Operand from aco_ir.h, one constructor per C++ constructor:
a temporary, an integer constant, undefined, or a fixed physical register. -/
inductive Operand
  | ofTemp (t : Temp)
  | ofConst (v : Nat)
  | undef
  | ofReg (r : Nat) (rc : RegClass)
  deriving DecidableEq, Repr

/-- Physical register of an operand as set by its constructor (`setFixed`):
constants get `constReg`, undefined gets 128; `ofTemp` has no fixed register
yet (we return 0, which the assembler never consults for temps). -/
def Operand.physReg : Operand → Nat
  | .ofTemp _ => 0
  | .ofConst v => constReg v
  | .undef => 128
  | .ofReg r _ => r

/-- Embeds `Operand::isConstant`. -/
def Operand.isConstant : Operand → Bool
  | .ofConst _ => true
  | _ => false

/-- Embeds `Operand::isLiteral`: a constant whose fixed register is 255. -/
def Operand.isLiteral (o : Operand) : Bool :=
  o.isConstant && o.physReg = 255

/-- Embeds `Operand::constantValue` (the raw uint32 payload). -/
def Operand.constantValue : Operand → Nat
  | .ofConst v => v
  | _ => 0

/-- Embeds `Operand::isUndefined`. -/
def Operand.isUndefined : Operand → Bool
  | .undef => true
  | _ => false

/-- Embeds `Operand::isTemp`. -/
def Operand.isTemp : Operand → Bool
  | .ofTemp _ => true
  | _ => false

/-- Embeds `Operand::getTemp` (default Temp for non-temp operands, which the
C++ leaves uninitialized; none of the embedded code paths consult it then). -/
def Operand.getTemp : Operand → Temp
  | .ofTemp t => t
  | .ofConst v => ⟨v, .b⟩
  | _ => ⟨0, .b⟩

/-- Embeds `Operand::tempId`. -/
def Operand.tempId (o : Operand) : Nat := o.getTemp.id

/-! ## Register-bound selection, from aco_register_allocation.cpp

`register_allocation` starts by picking `(max_sgpr, max_vgpr)` from the
program's demand with an if-else chain (lines 51-82); it then records
`config->num_vgprs = max_vgpr` and `config->num_sgprs = max_sgpr + 2`. -/

/-- Embeds the bound-selection prologue of `register_allocation`
(aco_register_allocation.cpp lines 51-82), returning
(max_sgpr, max_vgpr). -/
def register_allocation_bounds (sgpr_demand vgpr_demand : Nat) : Nat × Nat :=
  if vgpr_demand ≤ 24 ∧ sgpr_demand ≤ 46 then (46, 24)
  else if vgpr_demand ≤ 28 ∧ sgpr_demand ≤ 54 then (54, 28)
  else if vgpr_demand ≤ 32 ∧ sgpr_demand ≤ 62 then (62, 32)
  else if vgpr_demand ≤ 36 ∧ sgpr_demand ≤ 70 then (70, 36)
  else if vgpr_demand ≤ 40 ∧ sgpr_demand ≤ 78 then (78, 40)
  else if vgpr_demand ≤ 48 ∧ sgpr_demand ≤ 94 then (94, 48)
  else
    (100,
      if vgpr_demand ≤ 64 then 64
      else if vgpr_demand ≤ 84 then 84
      else if vgpr_demand ≤ 128 then 128
      else 256)

/-- Config registers recorded by `register_allocation`:
`num_sgprs = max_sgpr + 2` and `num_vgprs = max_vgpr`. -/
def register_allocation_config (sgpr_demand vgpr_demand : Nat) : Nat × Nat :=
  let mx := register_allocation_bounds sgpr_demand vgpr_demand
  (mx.1 + 2, mx.2)

/-- Modelled from the spec: the discrete occupancy table
{(46,24), (54,28), (62,32), (70,36), (78,40), (94,48)} of (max_sgpr,
max_vgpr) entries, in increasing order; the seventh entry has max_sgpr 100
and admits any vgpr demand up to 256. -/
def specRegTable : List (Nat × Nat) :=
  [(46, 24), (54, 28), (62, 32), (70, 36), (78, 40), (94, 48)]

/-- Modelled from the spec: the smallest table entry whose bounds fit both
demands (the seventh entry, max_sgpr 100, is the fallback). -/
def specSmallestFit (sgpr_demand vgpr_demand : Nat) : Option (Nat × Nat) :=
  specRegTable.find? (fun e => decide (vgpr_demand ≤ e.2 ∧ sgpr_demand ≤ e.1))

/-! ## Occupancy derivation, from live_var_analysis
(aco_live_var_analysis.cpp, src/unnamed/part_000 lines 185-213) -/

/-- Chip classes from amd_family.h that the core consults; the source only
tests `chip_class >= VI`. -/
inductive ChipClass
  | SI | CIK | VI | GFX9
  deriving DecidableEq, Repr

/-- Numeric order of the chip_class enum values used for `>=` tests. -/
def ChipClass.rank : ChipClass → Nat
  | .SI => 0
  | .CIK => 1
  | .VI => 2
  | .GFX9 => 3

/-- Embeds `total_sgpr_regs = options->chip_class >= VI ? 800 : 512`. -/
def total_sgpr_regs (chip : ChipClass) : Nat :=
  if ChipClass.rank .VI ≤ chip.rank then 800 else 512

/-- Embeds `max_addressible_sgpr = options->chip_class >= VI ? 102 : 104`. -/
def max_addressible_sgpr (chip : ChipClass) : Nat :=
  if ChipClass.rank .VI ≤ chip.rank then 102 else 104

/-- Embeds `rounded_vgpr_demand = std::max(4, (vgpr_demand + 3) & ~3)`
(uint16 arithmetic; the mask keeps bits 2..15, which also discards any
uint16 wrap of the addition). -/
def rounded_vgpr_demand (v : Nat) : Nat := max 4 ((v + 3) &&& 0xFFFC)

/-- Embeds `rounded_sgpr_demand =
std::min(std::max(8, (sgpr_demand + 7) & ~7), max_addressible_sgpr)`. -/
def rounded_sgpr_demand (chip : ChipClass) (s : Nat) : Nat :=
  min (max 8 ((s + 7) &&& 0xFFF8)) (max_addressible_sgpr chip)

/-- Result of the occupancy derivation: the fields `num_waves`, `max_sgpr`
and `max_vgpr` that `live_var_analysis` records on the program. -/
structure LiveVarResult where
  num_waves : Nat
  max_sgpr : Nat
  max_vgpr : Nat
  deriving DecidableEq, Repr

/-- Embeds the occupancy tail of `live_var_analysis` (part_000 lines
185-209): add 2 to the scalar demand for VCC; if the demand exceeds the
hardware limits record `num_waves = 0`, otherwise
`num_waves = min(10, min(256 / rounded_vgpr, total_sgpr / rounded_sgpr))`
together with the per-wave register maxima. -/
def live_var_analysis_occupancy (chip : ChipClass)
    (sgpr_demand_in vgpr_demand : Nat) : LiveVarResult :=
  if 256 < vgpr_demand ∨ max_addressible_sgpr chip < sgpr_demand_in + 2 then
    { num_waves := 0, max_sgpr := sgpr_demand_in + 2, max_vgpr := vgpr_demand }
  else
    let num_waves :=
      min 10 (min (256 / rounded_vgpr_demand vgpr_demand)
                  (total_sgpr_regs chip /
                    rounded_sgpr_demand chip (sgpr_demand_in + 2)))
    { num_waves := num_waves
      max_sgpr :=
        min ((total_sgpr_regs chip / num_waves) &&& 0xFFF8)
            (max_addressible_sgpr chip) - 2
      max_vgpr := (256 / num_waves) &&& 0xFFFC }

/-! ## Assembler, from aco_assembler.cpp
(the second unit inside src/src/compiler/nir/nir_divergence_analysis.c,
lines 341-668).

We embed the five scalar-ALU instruction formats (SOP2, SOPK, SOP1, SOPC,
SOPP) whose emission falls through to the trailing-literal loop, together
with the branch bookkeeping (`asm_context::branches`, `block_offset`) and
`fix_branches`.  `fix_exports` canonicalizes exports before emission and is
treated as part of the input program. -/

/-- Definition from aco_ir.h, after register allocation: a temp plus its
assigned physical register. -/
structure Definition where
  temp : Temp
  reg : Nat
  deriving DecidableEq, Repr

/-- Register class of a definition (`Definition::regClass`). -/
def Definition.regClass (d : Definition) : RegClass := d.temp.rc

/-- Default used for out-of-range operand accesses; the embedded emission
guards every access with the same count tests as the C++. -/
def defaultDef : Definition := ⟨⟨0, RegClass.b⟩, 0⟩

/-- Embeds `Operand::regClass()` (reads the union as a Temp; for constant
or undefined operands the C++ value is unspecified and the embedded
code paths never consult it — we return s1 there). -/
def Operand.regClass : Operand → RegClass
  | .ofTemp t => t.rc
  | .ofReg _ rc => rc
  | _ => .s1

/-- Scalar instruction formats handled by the embedded assembler. -/
inductive AFormat
  | SOP2 | SOPK | SOP1 | SOPC | SOPP
  deriving DecidableEq, Repr

/-- Embedded instruction for the assembler: format, the hardware opcode
field (`opcode_infos[...].opcode`), operands, definitions, the SOPK/SOPP
immediate, and the SOPP branch target block (`SOPP_instruction::block`). -/
structure AInstr where
  format : AFormat
  opcode : Nat
  operands : List Operand
  definitions : List Definition
  imm : Nat
  block : Option Nat
  deriving DecidableEq, Repr

/-- Embeds the trailing-literal loop at the end of `emit_instruction`:
push the 32-bit value of the first literal operand, if any, then stop. -/
def literal_dword : List Operand → List Nat
  | [] => []
  | o :: rest => if o.isLiteral then [o.constantValue] else literal_dword rest

/-- Embeds the SOP2 encoding word. -/
def sop2_encoding (i : AInstr) : Nat :=
  (2 <<< 30) ||| (i.opcode <<< 23) |||
  (if i.definitions.length ≠ 0 then (i.definitions.getD 0 defaultDef).reg <<< 16 else 0) |||
  (if 2 ≤ i.operands.length then (i.operands.getD 1 .undef).physReg <<< 8 else 0) |||
  (if i.operands.length ≠ 0 then (i.operands.getD 0 .undef).physReg else 0)

/-- Embeds the SOPK encoding word (the register field prefers a non-scc
definition, then a non-scc operand). -/
def sopk_encoding (i : AInstr) : Nat :=
  (11 <<< 28) ||| (i.opcode <<< 23) |||
  (if i.definitions.length ≠ 0 ∧ (i.definitions.getD 0 defaultDef).regClass ≠ .b then
    (i.definitions.getD 0 defaultDef).reg <<< 16
  else if i.operands.length ≠ 0 ∧ (i.operands.getD 0 .undef).regClass ≠ .b then
    (i.operands.getD 0 .undef).physReg <<< 16
  else 0) |||
  (i.imm &&& 0xFFFF)

/-- Embeds the SOP1 encoding word. -/
def sop1_encoding (i : AInstr) : Nat :=
  (381 <<< 23) |||
  (if i.definitions.length ≠ 0 then (i.definitions.getD 0 defaultDef).reg <<< 16 else 0) |||
  (i.opcode <<< 8) |||
  (if i.operands.length ≠ 0 then (i.operands.getD 0 .undef).physReg else 0)

/-- Embeds the SOPC encoding word. -/
def sopc_encoding (i : AInstr) : Nat :=
  (382 <<< 23) ||| (i.opcode <<< 16) |||
  (if i.operands.length = 2 then (i.operands.getD 1 .undef).physReg <<< 8 else 0) |||
  (if i.operands.length ≠ 0 then (i.operands.getD 0 .undef).physReg else 0)

/-- Embeds the SOPP encoding word (`(uint16_t) sopp->imm` in the low 16
bits). -/
def sopp_encoding (i : AInstr) : Nat :=
  (383 <<< 23) ||| (i.opcode <<< 16) ||| (i.imm &&& 0xFFFF)

/-- Encoding word of an instruction by format. -/
def instr_encoding (i : AInstr) : Nat :=
  match i.format with
  | .SOP2 => sop2_encoding i
  | .SOPK => sopk_encoding i
  | .SOP1 => sop1_encoding i
  | .SOPC => sopc_encoding i
  | .SOPP => sopp_encoding i

/-- Embeds `emit_instruction`: a SOPP with a branch target records
`(out.size(), target)` in the context before its word is pushed; every
embedded format then falls through to the trailing-literal loop. -/
def emit_instruction (st : List Nat × List (Nat × Nat)) (i : AInstr) :
    List Nat × List (Nat × Nat) :=
  let branches :=
    match i.format, i.block with
    | .SOPP, some t => st.2 ++ [(st.1.length, t)]
    | _, _ => st.2
  (st.1 ++ [instr_encoding i] ++ literal_dword i.operands, branches)

/-- Embeds `emit_block`: emit each instruction in order. -/
def emit_block (st : List Nat × List (Nat × Nat)) (blk : List AInstr) :
    List Nat × List (Nat × Nat) :=
  blk.foldl emit_instruction st

/-- Embeds the emission loop of `emit_program`: before each block is
emitted, `block_offset[index]` is set to the current word count (block
index equals position, invariant 3 of the data model). Returns
((out, branches), block_offset). -/
def emit_program_core (blocks : List (List AInstr)) :
    (List Nat × List (Nat × Nat)) × List Nat :=
  blocks.foldl
    (fun acc blk => (emit_block acc.1 blk, acc.2 ++ [acc.1.1.length]))
    (([], []), [])

/-- Embeds `fix_branches`: for each recorded branch, OR the 16-bit
two's-complement encoding of `block_offset[target] - pos - 1` into the
word at `pos`. -/
def fix_branches (out : List Nat) (branches : List (Nat × Nat))
    (offsets : List Nat) : List Nat :=
  branches.foldl
    (fun o br =>
      o.set br.1 ((o.getD br.1 0) |||
        ((((offsets.getD br.2 0 : Int) - br.1 - 1) % 65536).toNat)))
    out

/-- Embeds `emit_program` (without `fix_exports`, see section comment):
emit all blocks, then patch branches. -/
def emit_program (blocks : List (List AInstr)) : List Nat :=
  let core := emit_program_core blocks
  fix_branches core.1.1 core.1.2 core.2

/-- Words a single instruction contributes to the stream. -/
def instr_words (i : AInstr) : List Nat :=
  [instr_encoding i] ++ literal_dword i.operands

/-- Branch records a single instruction contributes, given the word
position where its encoding lands. -/
def instr_branch (pos : Nat) (i : AInstr) : List (Nat × Nat) :=
  match i.format, i.block with
  | .SOPP, some t => [(pos, t)]
  | _, _ => []

/-- Concatenated words of one block. -/
def block_code (blk : List AInstr) : List Nat := (blk.map instr_words).join

/-- Word offsets at which each block's code begins, starting from `off`:
this is what the emission loop records into `block_offset`. -/
def block_starts : List (List AInstr) → Nat → List Nat
  | [], _ => []
  | b :: bs, off => off :: block_starts bs (off + (block_code b).length)

/-! ## Spill-slot assignment, from the spiller
(src/unnamed/part_001, `assign_spill_slots`, lines 1130-1225)

The coloring input is `ctx.interferences`: per spill id its register class
and the set of ids recorded as interfering (the spiller records every
interference in both directions, and the affinity merge of lines 1136-1140
only adds pairs).  The id is its position in the list.  `sgpr_slot` and
`vgpr_slot` are combined into one per-id optional slot (the class tells the
bank).  The per-dword `spill_slot_interferences` vector is shared between
the sgpr loop and the vgpr loop exactly as in the source, and the vgpr loop
restarts `slot_idx` at 0.  The outer while(!done) loops take fuel; every
invariant proved below holds for any fuel. -/

/-- One entry of `ctx.interferences`. -/
structure SpillInfo where
  rc : RegClass
  interf : List Nat
  deriving DecidableEq, Repr

/-- Default entry for out-of-range reads (never consulted for ids in
range). -/
def defaultSpill : SpillInfo := ⟨RegClass.s1, []⟩

/-- Register class of spill id i. -/
def rcOf (ids : List SpillInfo) (i : Nat) : RegClass :=
  (ids.getD i defaultSpill).rc

/-- Recorded interference set of spill id i. -/
def interfOf (ids : List SpillInfo) (i : Nat) : List Nat :=
  (ids.getD i defaultSpill).interf

/-- Embeds inserting a set into `spill_slot_interferences[i]`, growing the
vector as the source's `emplace_back` does. -/
def slotInsert (si : List (List Nat)) (i : Nat) (xs : List Nat) :
    List (List Nat) :=
  let si2 := si ++ List.replicate (i + 1 - si.length) []
  si2.set i (si2.getD i [] ++ xs)

/-- Inserts a set into the dwords [lo, lo+n). -/
def insertRange (si : List (List Nat)) (lo n : Nat) (xs : List Nat) :
    List (List Nat) :=
  (List.range n).foldl (fun s k => slotInsert s (lo + k) xs) si

/-- Embeds the body of the per-id loop of a coloring pass: skip assigned
ids and ids of the other bank; check each dword of the candidate window for
a recorded interference (and, in the vgpr loop, that the dword stays inside
the 64-dword linear-vgpr of `slot_idx`); on failure clear `done`, on
success record the slot and insert the id's interference set into the
window. -/
def color_step (ids : List SpillInfo) (bank : RegType) (slot_idx : Nat)
    (st : List (Option Nat) × List (List Nat) × Bool) (id : Nat) :
    List (Option Nat) × List (List Nat) × Bool :=
  if (st.1.getD id none).isSome then st
  else if typeOf (rcOf ids id) ≠ bank then st
  else
    let size := sizeOf (rcOf ids id)
    let interferes := (List.range size).any (fun k =>
      decide (id ∈ st.2.1.getD (slot_idx + k) []) ||
      (bank = RegType.vgpr && decide ((slot_idx + k) / 64 ≠ slot_idx / 64)))
    if interferes then (st.1, st.2.1, false)
    else
      (st.1.set id (some slot_idx),
       insertRange st.2.1 slot_idx size (interfOf ids id),
       st.2.2)

/-- One pass of a coloring loop at a fixed `slot_idx` over all ids. -/
def color_pass (ids : List SpillInfo) (bank : RegType) (slot_idx : Nat)
    (assigned : List (Option Nat)) (si : List (List Nat)) :
    List (Option Nat) × List (List Nat) × Bool :=
  (List.range ids.length).foldl (color_step ids bank slot_idx)
    (assigned, si, true)

/-- Embeds a `while (!done)` coloring loop (fuel-bounded). -/
def color_loop (ids : List SpillInfo) (bank : RegType) :
    Nat → Nat → List (Option Nat) → List (List Nat) →
    List (Option Nat) × List (List Nat)
  | 0, _, assigned, si => (assigned, si)
  | fuel + 1, slot_idx, assigned, si =>
    let r := color_pass ids bank slot_idx assigned si
    if r.2.2 then (r.1, r.2.1)
    else color_loop ids bank fuel (slot_idx + 1) r.1 r.2.1

/-- Embeds the slot-coloring phase of `assign_spill_slots`: the sgpr loop,
then the vgpr loop over the shared state with `slot_idx` reset to 0. -/
def assign_spill_slots (ids : List SpillInfo) (fuel : Nat) :
    List (Option Nat) × List (List Nat) :=
  let r1 := color_loop ids RegType.sgpr fuel 0
    (List.replicate ids.length none) []
  color_loop ids RegType.vgpr fuel 0 r1.1 r1.2

/-- Invariant: every assigned id's window records its interference set. -/
def CoverOK (ids : List SpillInfo) (assigned : List (Option Nat))
    (si : List (List Nat)) : Prop :=
  ∀ i s, assigned.getD i none = some s →
    ∀ d, s ≤ d → d < s + sizeOf (rcOf ids i) →
      ∀ x ∈ interfOf ids i, x ∈ si.getD d []

/-- Invariant: ids recorded as interfering in both directions have disjoint
slot windows. -/
def DisjointOK (ids : List SpillInfo) (assigned : List (Option Nat)) : Prop :=
  ∀ i j si1 sj, i ≠ j →
    j ∈ interfOf ids i → i ∈ interfOf ids j →
    assigned.getD i none = some si1 → assigned.getD j none = some sj →
    (si1 + sizeOf (rcOf ids i) ≤ sj ∨ sj + sizeOf (rcOf ids j) ≤ si1)

/-- Invariant: assigned vgpr-class ids never straddle a 64-dword
linear-vgpr boundary. -/
def StraddleOK (ids : List SpillInfo) (assigned : List (Option Nat)) : Prop :=
  ∀ i s, assigned.getD i none = some s →
    typeOf (rcOf ids i) = RegType.vgpr →
    ∀ k, k < sizeOf (rcOf ids i) → (s + k) / 64 = s / 64

/-- Invariant: only sgpr- or vgpr-class ids get slots (the loops skip the
scc class). -/
def BankOK (ids : List SpillInfo) (assigned : List (Option Nat)) : Prop :=
  ∀ i s, assigned.getD i none = some s → typeOf (rcOf ids i) ≠ RegType.scc

/-- All coloring invariants together. -/
def ColorInv (ids : List SpillInfo) (assigned : List (Option Nat))
    (si : List (List Nat)) : Prop :=
  CoverOK ids assigned si ∧ DisjointOK ids assigned ∧
  StraddleOK ids assigned ∧ BankOK ids assigned

/-- Concrete interference context refuting the claim as stated: seven
pairwise-interfering sgpr spill ids of sizes 16, 16, 16, 8, 4, 2, 1 fill
dwords 0..62, so the final s2 id (id 7, also interfering with all of them)
is packed at slot 63 and straddles the 64-dword linear-vgpr boundary —
the sgpr coloring loop has no boundary check, yet sgpr spills are exactly
the ones the rewrite stores into linear-vgprs. -/
def exSpillIds : List SpillInfo :=
  [⟨RegClass.s16, [1, 2, 3, 4, 5, 6, 7]⟩,
   ⟨RegClass.s16, [0, 2, 3, 4, 5, 6, 7]⟩,
   ⟨RegClass.s16, [0, 1, 3, 4, 5, 6, 7]⟩,
   ⟨RegClass.s8, [0, 1, 2, 4, 5, 6, 7]⟩,
   ⟨RegClass.s4, [0, 1, 2, 3, 5, 6, 7]⟩,
   ⟨RegClass.s2, [0, 1, 2, 3, 4, 6, 7]⟩,
   ⟨RegClass.s1, [0, 1, 2, 3, 4, 5, 7]⟩,
   ⟨RegClass.s2, [0, 1, 2, 3, 4, 5, 6]⟩]

/-! ## Divergent-bool phi lowering, from aco_lower_bool_phis.cpp

`lower_divergent_bool_phi` (lines 143-201) walks the logical predecessors
of an s2 phi; at the end of each predecessor it materializes an s1 (SCC)
incoming value with `s_cselect_b64 -1, 0, scc`, reads the running
accumulator through the on-demand SSA state (`get_ssa`), writes a new
accumulator value (`write_ssa`, which repairs previously created incomplete
linear phis through `update_phi`), and inserts either a plain
`s_mov_b64` (when the accumulator is still undefined) or the
`s_andn2_b64 / s_and_b64 / s_or_b64` EXEC blend.  Finally the phi is
replaced by a copy from the accumulator at the merge block.

State embedding notes: `ssa_state::latest` and `::phis` are std::maps,
embedded as association lists (lookup and in-place update; the iteration
order of `phis` entries in `write_ssa` only affects which fresh ids the
repairs allocate, nothing the theorems depend on).  `cur.tempId()` of an
undefined Operand reads uninitialized C++ memory; the code then tests
`if (previous)`, and id 0 is the reserved "no temp", so the embedding gives
undefined operands temp id 0 (`Operand.getTemp`) and `write_ssa` skips the
repair for id 0. -/

/-- Hardware EXEC register number from aco_ir.h (`PhysReg exec{126}`). -/
def execReg : Nat := 126

/-- Instructions of the embedded low-level IR that this pass reads or
creates. `sCselectB64` carries the instruction's three operands as built
by the source: the all-ones select value, the zero select value, and the
source temp that `setFixed(scc)` pins to the SCC register. -/
inductive BInstr
  | sCselectB64 (dst : Temp) (op0 op1 : Operand) (sccSrc : Temp)
  | sMovB64 (dst : Temp) (src : Operand)
  | sAndn2B64 (dst : Temp) (sccId : Nat) (op0 : Operand) (op1 : Operand)
  | sAndB64 (dst : Temp) (sccId : Nat) (op0 : Operand) (op1 : Operand)
  | sOrB64 (dst : Temp) (sccId : Nat) (op0 : Operand) (op1 : Operand)
  | linearPhi (dst : Temp) (ops : List Operand)
  | logicalPhi (dst : Temp) (ops : List Operand)
  | logicalEnd
  | branch
  | other
  deriving DecidableEq, Repr

/-- Is this a phi (the leading segment of a block)? -/
def isPhiInstr : BInstr → Bool
  | .linearPhi _ _ => true
  | .logicalPhi _ _ => true
  | _ => false

/-- Is this `p_logical_end`? -/
def isLogicalEnd : BInstr → Bool
  | .logicalEnd => true
  | _ => false

/-- Is this a branch-format pseudo? -/
def isBranchInstr : BInstr → Bool
  | .branch => true
  | _ => false

/-- Block of the embedded low-level IR. -/
structure BBlock where
  logical_preds : List Nat
  linear_preds : List Nat
  instructions : List BInstr
  deriving DecidableEq, Repr

/-- Default block for out-of-range reads. -/
def defaultBBlock : BBlock := ⟨[], [], []⟩

/-- Program of the embedded low-level IR with its id allocator. -/
structure BProgram where
  blocks : List BBlock
  nextId : Nat
  deriving DecidableEq, Repr

/-- Rewrites one block's instruction list in place. -/
def modifyInstrs (prog : BProgram) (b : Nat) (f : List BInstr → List BInstr) :
    BProgram :=
  { prog with
    blocks := prog.blocks.set b
      (let blk := prog.blocks.getD b defaultBBlock
       { blk with instructions := f blk.instructions }) }

/-- Association-list lookup for `ssa_state::latest`. -/
def lookupAssoc (l : List (Nat × Nat)) (k : Nat) : Option Nat :=
  (l.find? (fun p => p.1 = k)).map Prod.snd

/-- Association-list update for `ssa_state::latest`. -/
def setAssoc (l : List (Nat × Nat)) (k v : Nat) : List (Nat × Nat) :=
  if (l.find? (fun p => p.1 = k)).isSome then
    l.map (fun p => if p.1 = k then (k, v) else p)
  else (k, v) :: l

/-- The `phi_use` key of `ssa_state::phis`: (merge block, phi def id). -/
def PhiUse : Type := Nat × Nat

instance : DecidableEq PhiUse := by
  unfold PhiUse
  infer_instance

/-- On-demand SSA state (`ssa_state`): the latest accumulator id per block,
and for each value the incomplete-phi uses (phi_use, operand bit mask). -/
structure SsaState where
  latest : List (Nat × Nat)
  phis : List (Nat × List ((Nat × Nat) × Nat))
  deriving DecidableEq, Repr

/-- Lookup of `phis[id]`. -/
def lookupPhis (m : List (Nat × List ((Nat × Nat) × Nat))) (k : Nat) :
    List ((Nat × Nat) × Nat) :=
  ((m.find? (fun p => p.1 = k)).map Prod.snd).getD []

/-- Removal of `phis[id]` (the source empties it by swap). -/
def removePhis (m : List (Nat × List ((Nat × Nat) × Nat))) (k : Nat) :
    List (Nat × List ((Nat × Nat) × Nat)) :=
  m.filter (fun p => p.1 ≠ k)

/-- Records `state->phis[id][(block, phi_def)] |= 1 << bit`. -/
def addPhiUse (st : SsaState) (id : Nat) (use : Nat × Nat) (bit : Nat) :
    SsaState :=
  let entry := lookupPhis st.phis id
  let entry2 :=
    if (entry.find? (fun p => p.1 = use)).isSome then
      entry.map (fun p => if p.1 = use then (use, p.2 ||| (1 <<< bit)) else p)
    else entry ++ [(use, 1 <<< bit)]
  { st with phis := (st.phis.filter (fun p => p.1 ≠ id)) ++ [(id, entry2)] }

mutual

/-- Embeds `get_ssa`: return the latest accumulator of the block if set;
an undefined operand at the entry; recurse through single predecessors; and
at a merge point allocate a fresh id, record it, build a linear phi by
reading every predecessor (registering incomplete-phi uses for temp
operands) and prepend it to the block. -/
def get_ssa : Nat → BProgram → SsaState → Nat →
    Option (BProgram × SsaState × Operand)
  | 0, _, _, _ => none
  | fuel + 1, prog, st, blockIdx =>
    match lookupAssoc st.latest blockIdx with
    | some id => some (prog, st, Operand.ofTemp ⟨id, RegClass.s2⟩)
    | none =>
      match hp : (prog.blocks.getD blockIdx defaultBBlock).linear_preds with
      | [] => some (prog, st, Operand.undef)
      | [p] => get_ssa fuel prog st p
      | _ =>
        let res := prog.nextId
        let prog1 := { prog with nextId := prog.nextId + 1 }
        let st1 := { st with latest := setAssoc st.latest blockIdx res }
        match get_ssa_list fuel prog1 st1 blockIdx res
          ((prog.blocks.getD blockIdx defaultBBlock).linear_preds.enum) with
        | none => none
        | some (prog2, st2, ops) =>
          let prog3 := modifyInstrs prog2 blockIdx
            (fun l => BInstr.linearPhi ⟨res, RegClass.s2⟩ ops :: l)
          some (prog3, st2, Operand.ofTemp ⟨res, RegClass.s2⟩)

/-- Embeds the operand loop of `get_ssa`'s merge case. -/
def get_ssa_list : Nat → BProgram → SsaState → Nat → Nat →
    List (Nat × Nat) → Option (BProgram × SsaState × List Operand)
  | 0, _, _, _, _, _ => none
  | _ + 1, prog, st, _, _, [] => some (prog, st, [])
  | fuel + 1, prog, st, blockIdx, res, (i, p) :: rest =>
    match get_ssa fuel prog st p with
    | none => none
    | some (prog1, st1, op) =>
      let st2 :=
        if op.isTemp then addPhiUse st1 op.tempId (blockIdx, res) i else st1
      match get_ssa_list fuel prog1 st2 blockIdx res rest with
      | none => none
      | some (prog2, st3, ops) => some (prog2, st3, op :: ops)

end

/-- Embeds the phi-operand rewrite inside `update_phi`: scan the leading
phi segment, find the linear phi with the given definition id, and replace
its operand `k`; stop at the first non-phi instruction. -/
def set_phi_operand (l : List BInstr) (phi_def k : Nat) (newOp : Operand) :
    List BInstr :=
  match l with
  | [] => []
  | instr :: rest =>
    if isPhiInstr instr then
      match instr with
      | .linearPhi d ops =>
        if d.id = phi_def then .linearPhi d (ops.set k newOp) :: rest
        else instr :: set_phi_operand rest phi_def k newOp
      | _ => instr :: set_phi_operand rest phi_def k newOp
    else l

/-- Embeds the `u_bit_scan64` loop of `update_phi`: for each set bit (low
to high), read the corresponding linear predecessor through `get_ssa`,
install the operand and register the new incomplete-phi use. -/
def update_phi_bits (fuel : Nat) :
    List Nat → BProgram → SsaState → Nat → Nat → Nat →
    Option (BProgram × SsaState)
  | [], prog, st, _, _, _ => some (prog, st)
  | k :: rest, prog, st, blockIdx, phi_def, mask =>
    if mask.testBit k then
      let pred :=
        (prog.blocks.getD blockIdx defaultBBlock).linear_preds.getD k 0
      match get_ssa fuel prog st pred with
      | none => none
      | some (p1, s1, newOp) =>
        let p2 := modifyInstrs p1 blockIdx
          (fun l => set_phi_operand l phi_def k newOp)
        let s2 :=
          if newOp.isUndefined then s1
          else addPhiUse s1 newOp.tempId (blockIdx, phi_def) k
        update_phi_bits fuel rest p2 s2 blockIdx phi_def mask
    else update_phi_bits fuel rest prog st blockIdx phi_def mask

/-- Embeds `update_phi` (operand masks are at most 64 bits wide). -/
def update_phi (fuel : Nat) (prog : BProgram) (st : SsaState)
    (blockIdx phi_def mask : Nat) : Option (BProgram × SsaState) :=
  update_phi_bits fuel (List.range 64) prog st blockIdx phi_def mask

/-- Embeds the repair loop of `write_ssa` over the taken `phis[previous]`
entries. -/
def write_ssa_entries (fuel : Nat) :
    List ((Nat × Nat) × Nat) → BProgram → SsaState →
    Option (BProgram × SsaState)
  | [], prog, st => some (prog, st)
  | (use, mask) :: rest, prog, st =>
    match update_phi fuel prog st use.1 use.2 mask with
    | none => none
    | some (p1, s1) => write_ssa_entries fuel rest p1 s1

/-- Embeds `write_ssa`: allocate a fresh accumulator id, record it as the
block's latest, and when overwriting a previous value repair all
incomplete phis that used it. -/
def write_ssa (fuel : Nat) (prog : BProgram) (st : SsaState)
    (blockIdx previous : Nat) : Option (BProgram × SsaState × Temp) :=
  let id := prog.nextId
  let prog1 := { prog with nextId := prog.nextId + 1 }
  let st1 := { st with latest := setAssoc st.latest blockIdx id }
  if previous ≠ 0 then
    let entries := lookupPhis st1.phis previous
    let st2 := { st1 with phis := removePhis st1.phis previous }
    match write_ssa_entries fuel entries prog1 st2 with
    | none => none
    | some (p2, s3) => some (p2, s3, ⟨id, RegClass.s2⟩)
  else
    some (prog1, st1, ⟨id, RegClass.s2⟩)

/-- Embeds the reverse scan of `insert_before_branch` /
`insert_before_logical_end`: index of the last `p_logical_end`. -/
def find_last_logical_end : List BInstr → Option Nat
  | [] => none
  | i :: rest =>
    match find_last_logical_end rest with
    | some j => some (j + 1)
    | none => if isLogicalEnd i then some 0 else none

/-- Embeds `insert_before_branch`: insert before a trailing branch, else
append. -/
def insert_before_branch (blk : List BInstr) (instr : BInstr) :
    List BInstr :=
  if (blk.getLast?.map isBranchInstr).getD false then
    blk.take (blk.length - 1) ++ [instr] ++ blk.drop (blk.length - 1)
  else blk ++ [instr]

/-- Embeds `insert_before_logical_end`: insert before the last
`p_logical_end`, falling back to `insert_before_branch`. -/
def insert_before_logical_end (blk : List BInstr) (instr : BInstr) :
    List BInstr :=
  match find_last_logical_end blk with
  | some j => blk.take j ++ [instr] ++ blk.drop j
  | none => insert_before_branch blk instr

/-- Embeds the accumulator-update tail of one predecessor-loop iteration
of `lower_divergent_bool_phi` (lines 162-195), run once the incoming
value is in mask form: read the running accumulator, allocate its new
value, and insert either the plain move (undefined accumulator) or the
ANDN2/AND/OR EXEC blend at the end of the predecessor. -/
def lower_bool_phi_tail (fuel : Nat) (prog : BProgram) (st : SsaState)
    (pred : Nat) (phi_src : Temp) : Option (BProgram × SsaState) :=
  match get_ssa fuel prog st pred with
  | none => none
  | some (p1, s1, cur) =>
    match write_ssa fuel p1 s1 pred cur.tempId with
    | none => none
    | some (p2, s2, new_cur) =>
      if cur.isUndefined then
        some (modifyInstrs p2 pred
          (fun l => insert_before_logical_end l
            (BInstr.sMovB64 new_cur (Operand.ofTemp phi_src))), s2)
      else
        let tmp1 : Temp := ⟨p2.nextId, RegClass.s2⟩
        let scc1 := p2.nextId + 1
        let p3 := { p2 with nextId := p2.nextId + 2 }
        let p4 := modifyInstrs p3 pred
          (fun l => insert_before_logical_end l
            (BInstr.sAndn2B64 tmp1 scc1 cur
              (Operand.ofReg execReg RegClass.s2)))
        let tmp2 : Temp := ⟨p4.nextId, RegClass.s2⟩
        let scc2 := p4.nextId + 1
        let p5 := { p4 with nextId := p4.nextId + 2 }
        let p6 := modifyInstrs p5 pred
          (fun l => insert_before_logical_end l
            (BInstr.sAndB64 tmp2 scc2 (Operand.ofTemp phi_src)
              (Operand.ofReg execReg RegClass.s2)))
        let scc3 := p6.nextId
        let p7 := { p6 with nextId := p6.nextId + 1 }
        let p8 := modifyInstrs p7 pred
          (fun l => insert_before_logical_end l
            (BInstr.sOrB64 new_cur scc3 (Operand.ofTemp tmp1)
              (Operand.ofTemp tmp2)))
        some (p8, s2)

/-- Embeds one iteration of the predecessor loop of
`lower_divergent_bool_phi` (lines 146-195): at logical predecessor `i` of
the merge block, materialize an s1 incoming value into mask form through
`s_cselect_b64` — operand 0 the all-ones constant `(uint32_t) -1`,
operand 1 the zero constant, operand 2 the incoming temp pinned to SCC by
`setFixed(scc)`, defining a fresh s2 temp — and hand the mask-form value
to the accumulator update. -/
def lower_bool_phi_edge (fuel : Nat) (prog : BProgram) (st : SsaState)
    (blockIdx i : Nat) (op : Operand) : Option (BProgram × SsaState) :=
  let pred :=
    (prog.blocks.getD blockIdx defaultBBlock).logical_preds.getD i 0
  let src0 := op.getTemp
  let matRes : Temp × BProgram :=
    if src0.rc = RegClass.s1 then
      let id := prog.nextId
      let prog1 := { prog with nextId := prog.nextId + 1 }
      let prog2 := modifyInstrs prog1 pred
        (fun l => insert_before_logical_end l
          (BInstr.sCselectB64 ⟨id, RegClass.s2⟩
            (Operand.ofConst 4294967295) (Operand.ofConst 0) src0))
      (⟨id, RegClass.s2⟩, prog2)
    else (src0, prog)
  lower_bool_phi_tail fuel matRes.2 st pred matRes.1

/-- Embeds the edge loop of `lower_divergent_bool_phi`. -/
def lower_bool_phi_edges (fuel : Nat) :
    List (Nat × Operand) → BProgram → SsaState → Nat →
    Option (BProgram × SsaState)
  | [], prog, st, _ => some (prog, st)
  | (i, op) :: rest, prog, st, blockIdx =>
    match lower_bool_phi_edge fuel prog st blockIdx i op with
    | none => none
    | some (p1, s1) => lower_bool_phi_edges fuel rest p1 s1 blockIdx

/-- Embeds `lower_divergent_bool_phi`: process every logical predecessor
edge, then build the `s_mov_b64` copy of the final accumulator into the
phi's definition (the caller replaces the phi with it). -/
def lower_divergent_bool_phi (fuel : Nat) (prog : BProgram)
    (blockIdx : Nat) (phiOps : List Operand) (phiDef : Temp) :
    Option (BProgram × BInstr) :=
  match lower_bool_phi_edges fuel phiOps.enum prog ⟨[], []⟩ blockIdx with
  | none => none
  | some (p1, s1) =>
    match get_ssa fuel p1 s1 blockIdx with
    | none => none
    | some (p2, _, cur) => some (p2, BInstr.sMovB64 phiDef cur)

/-- A concrete three-block diamond: block 0 is the entry (no linear
predecessors), block 1 is the then-side, block 2 the merge point with
logical and linear predecessors 0 and 1. The phi to lower lives in block 2
with incoming s2 temps 1 and 2 and definition temp 3; ids 0..3 are taken. -/
def exBoolProg : BProgram :=
  ⟨[⟨[], [], [BInstr.logicalEnd, BInstr.branch]⟩,
    ⟨[0], [0], [BInstr.logicalEnd, BInstr.branch]⟩,
    ⟨[0, 1], [0, 1], [BInstr.logicalEnd]⟩], 4⟩

/-- The operands of the divergent boolean phi in `exBoolProg`. -/
def exBoolOps : List Operand :=
  [Operand.ofTemp ⟨1, RegClass.s2⟩, Operand.ofTemp ⟨2, RegClass.s2⟩]

/-- Does the instruction list contain any piece of the EXEC blend
(`s_andn2_b64` or `s_or_b64`)? -/
def hasBlend (l : List BInstr) : Bool :=
  l.any (fun i =>
    match i with
    | BInstr.sAndn2B64 _ _ _ _ => true
    | BInstr.sOrB64 _ _ _ _ => true
    | _ => false)

/-! ## Driver entry, from aco_interface.cpp (src/unnamed/part_002) -/

/-- Shader stages from mesa's gl_shader_stage that the driver entry can
receive; only the fragment test appears in the source. -/
inductive ShaderStage
  | vertex | tess_ctrl | tess_eval | geometry | fragment | compute
  deriving DecidableEq, Repr

/-- Pipeline passes invoked by `aco_compile_shader`, in call order. -/
inductive PassName
  | select_program | register_allocation | eliminate_pseudo_instr
  | schedule | insert_wait_states | emit_program
  deriving DecidableEq, Repr

/-- Embeds `aco_compile_shader` (part_002 lines 30-68): a non-fragment
shader returns immediately; a fragment shader has its output structures
overwritten by the pass pipeline and every pass runs.  The pipeline body
(select_program through emit_program, which are separate compilation units)
is abstracted as the function argument `pipeline`; the returned list records
which passes ran. -/
def aco_compile_shader {α : Type} (pipeline : α → α) (stage : ShaderStage)
    (outs : α) : α × List PassName :=
  if stage = ShaderStage.fragment then
    (pipeline outs,
      [PassName.select_program, PassName.register_allocation,
       PassName.eliminate_pseudo_instr, PassName.schedule,
       PassName.insert_wait_states, PassName.emit_program])
  else
    (outs, [])

/-- Invariant carried through emission: every recorded branch has a position
inside the stream whose word has zero low 16 bits, and positions are
pairwise distinct. -/
def BranchesOk (out : List Nat) (brs : List (Nat × Nat)) : Prop :=
  (∀ p ∈ brs, p.1 < out.length ∧ (out.getD p.1 0) &&& 65535 = 0) ∧
  (brs.map Prod.fst).Pairwise (fun a b => a ≠ b)


/-! ## Divergence analysis, from nir_divergence_analysis.c

The analysis computes a boolean map over SSA indices (`rzalloc_array` of
`ssa_alloc` bools, embedded as a `List Bool` read with default false).  Each
visitor mirrors the corresponding `visit_*` function.  Static facts that the
C code reads from the surrounding IR are carried on the instruction:
- for ALU sources, the effective index consulted after the
  swizzle-piercing of `alu_src_is_divergent` (the operand's own index, or
  the selected component source of a vec2/3/4 construction);
- for phis, each operand's index plus whether its defining instruction is
  an `ssa_undef`, and the list of enclosing condition indices the flavor
  step consults (a gamma phi at an if-join consults exactly the preceding
  if condition; mu and eta phis walk the enclosing if conditions of the
  re-entering or exiting predecessors up to the loop);
- for derefs, one flag per use recording whether the use is a texture
  instruction. -/

/-- Intrinsic classification in `visit_intrinsic`: the explicitly uniform
set (shader_clock, ballot, read_(first_)invocation, the votes, reduce,
load_push_constant, vulkan_resource_index), `load_ubo` (divergent iff any
source is), and the divergent default (including load_interpolated_input
and load_barycentric_pixel). -/
inductive IntrinsicKind
  | uniformIntr | loadUbo | otherIntr
  deriving DecidableEq, Repr

/-- Instructions of the embedded higher-level SSA IR. -/
inductive DInstr
  | alu (dest : Nat) (srcs : List Nat)
  | intrinsic (kind : IntrinsicKind) (hasDest : Bool) (dest : Nat) (srcs : List Nat)
  | tex (dest : Nat) (srcs : List (Bool × Nat))
  | phi (dest : Nat) (srcs : List (Nat × Bool)) (conds : List Nat)
  | parallelCopy (entries : List (Nat × Nat))
  | loadConst (dest : Nat)
  | ssaUndef (dest : Nat)
  | deref (dest : Nat) (uses : List Bool)
  | jump
  deriving DecidableEq, Repr

/-- Embeds `visit_alu`: once divergent, return unchanged; otherwise the
destination becomes divergent iff some consulted source index is. -/
def visit_alu (t : List Bool) (dest : Nat) (srcs : List Nat) :
    List Bool × Bool :=
  if t.getD dest false then (t, false)
  else if srcs.any (fun s => t.getD s false) then (t.set dest true, true)
  else (t.set dest false, false)

/-- Embeds `visit_intrinsic`. -/
def visit_intrinsic (t : List Bool) (kind : IntrinsicKind) (hasDest : Bool)
    (dest : Nat) (srcs : List Nat) : List Bool × Bool :=
  if !hasDest then (t, false)
  else if t.getD dest false then (t, false)
  else
    let is_divergent :=
      match kind with
      | .uniformIntr => false
      | .loadUbo => srcs.any (fun s => t.getD s false)
      | .otherIntr => true
    (t.set dest is_divergent, is_divergent)

/-- Embeds `visit_tex`: divergent iff a coordinate source is divergent. -/
def visit_tex (t : List Bool) (dest : Nat) (srcs : List (Bool × Nat)) :
    List Bool × Bool :=
  if t.getD dest false then (t, false)
  else
    let is_divergent := srcs.any (fun p => p.1 && t.getD p.2 false)
    (t.set dest is_divergent, is_divergent)

/-- Embeds `visit_phi` (all three flavors): once divergent, return
unchanged; divergent if any source is; if all sources but at most one are
undefs, stay uniform without consulting conditions; otherwise divergent iff
one of the flavor's enclosing conditions is divergent (for a gamma phi,
`conds` is the single condition of the preceding if). -/
def visit_phi (t : List Bool) (dest : Nat) (srcs : List (Nat × Bool))
    (conds : List Nat) : List Bool × Bool :=
  if t.getD dest false then (t, false)
  else if srcs.any (fun s => t.getD s.1 false) then (t.set dest true, true)
  else if (srcs.filter (fun s => !s.2)).length ≤ 1 then (t, false)
  else if conds.any (fun c => t.getD c false) then (t.set dest true, true)
  else (t.set dest false, false)

/-- Embeds `visit_parallel_copy`: each entry's destination inherits its
source unless already divergent. -/
def visit_parallel_copy (t : List Bool) (entries : List (Nat × Nat)) :
    List Bool × Bool :=
  entries.foldl
    (fun acc e =>
      if acc.1.getD e.1 false then acc
      else
        let v := acc.1.getD e.2 false
        (acc.1.set e.1 v, acc.2 || v))
    (t, false)

/-- Embeds `visit_load_const`: always uniform. -/
def visit_load_const (t : List Bool) (dest : Nat) : List Bool × Bool :=
  (t.set dest false, false)

/-- Embeds `visit_ssa_undef`: always uniform. -/
def visit_ssa_undef (t : List Bool) (dest : Nat) : List Bool × Bool :=
  (t.set dest false, false)

/-- Embeds `visit_deref`: uniform as soon as some use is not a texture
instruction; otherwise divergent (reporting a change only on the first
visit). -/
def visit_deref (t : List Bool) (dest : Nat) (uses : List Bool) :
    List Bool × Bool :=
  if uses.any (fun u => !u) then (t.set dest false, false)
  else
    let before := t.getD dest false
    (t.set dest true, !before)

/-- Embeds the dispatch in `nir_divergence_analysis`'s block walk. -/
def visit_instr (t : List Bool) : DInstr → List Bool × Bool
  | .alu dest srcs => visit_alu t dest srcs
  | .intrinsic kind hasDest dest srcs => visit_intrinsic t kind hasDest dest srcs
  | .tex dest srcs => visit_tex t dest srcs
  | .phi dest srcs conds => visit_phi t dest srcs conds
  | .parallelCopy entries => visit_parallel_copy t entries
  | .loadConst dest => visit_load_const t dest
  | .ssaUndef dest => visit_ssa_undef t dest
  | .deref dest uses => visit_deref t dest uses
  | .jump => (t, false)

/-- One pass over the program's instructions in block order, accumulating
`has_changed` (the worklist re-adds every block after a change, so the
fixpoint loop is a sequence of whole-program passes). -/
def divergence_pass (t : List Bool) (instrs : List DInstr) :
    List Bool × Bool :=
  instrs.foldl
    (fun acc i =>
      let r := visit_instr acc.1 i
      (r.1, acc.2 || r.2))
    (t, false)

/-- Embeds the fixpoint loop of `nir_divergence_analysis`: repeat passes
while something changed (with fuel standing in for termination). -/
def nir_divergence_analysis (fuel : Nat) (instrs : List DInstr)
    (t : List Bool) : List Bool :=
  match fuel with
  | 0 => t
  | fuel + 1 =>
    let r := divergence_pass t instrs
    if r.2 then nir_divergence_analysis fuel instrs r.1 else r.1

/-- Intermediate divergence maps after each individual visit of one pass. -/
def divergence_trace_pass (t : List Bool) : List DInstr → List (List Bool)
  | [] => []
  | i :: rest =>
    (visit_instr t i).1 :: divergence_trace_pass (visit_instr t i).1 rest

/-- Intermediate divergence maps after each individual visit across the
whole fixpoint iteration. -/
def divergence_trace (fuel : Nat) (instrs : List DInstr) (t : List Bool) :
    List (List Bool) :=
  match fuel with
  | 0 => []
  | fuel + 1 =>
    let r := divergence_pass t instrs
    divergence_trace_pass t instrs ++
      (if r.2 then divergence_trace fuel instrs r.1 else [])

/-- SSA indices an instruction's visit may write. -/
def DInstr.destsWritten : DInstr → List Nat
  | .alu dest _ => [dest]
  | .intrinsic _ hasDest dest _ => if hasDest then [dest] else []
  | .tex dest _ => [dest]
  | .phi dest _ _ => [dest]
  | .parallelCopy entries => entries.map Prod.fst
  | .loadConst dest => [dest]
  | .ssaUndef dest => [dest]
  | .deref dest _ => [dest]
  | .jump => []

/-- SSA indices an instruction's visit always sets to false (uniform):
the destinations of load_const and ssa_undef, and of a deref with a
non-texture use. -/
def staticFalseDests : DInstr → List Nat
  | .loadConst dest => [dest]
  | .ssaUndef dest => [dest]
  | .deref dest uses => if uses.any (fun u => !u) then [dest] else []
  | _ => []

/-- Invariant: the statically-uniform destinations are uniform in the map. -/
def StaticOK (instrs : List DInstr) (t : List Bool) : Prop :=
  ∀ i ∈ instrs, ∀ d ∈ staticFalseDests i, t.getD d false = false

/-- Pointwise order on divergence maps: false may only turn true. -/
def mapLE (a b : List Bool) : Prop :=
  ∀ k, a.getD k false = true → b.getD k false = true

/-! ## Theorems -/

/-! ### Assembler lemmas (C7, C9) -/

/-- Helper: masking with 65535 is reduction mod 2^16. -/
theorem and_65535_eq_mod (x : Nat) : x &&& 65535 = x % 65536 := by
  have h : (65535 : Nat) = 2 ^ 16 - 1 := by norm_num
  rw [h, Nat.and_pow_two_sub_one_eq_mod]

/-- Helper: a value shifted left by at least 16 has zero low 16 bits. -/
theorem low16_shiftLeft (x n : Nat) (h : 16 ≤ n) : (x <<< n) &&& 65535 = 0 := by
  rw [and_65535_eq_mod, Nat.shiftLeft_eq]
  have h2 : (65536 : Nat) = 2 ^ 16 := by norm_num
  rw [h2]
  exact Nat.mod_eq_zero_of_dvd (Dvd.dvd.mul_left (pow_dvd_pow 2 h) x)

/-- Helper: or of two values with zero low 16 bits has zero low 16 bits. -/
theorem low16_or_zero (a b : Nat) (ha : a &&& 65535 = 0) (hb : b &&& 65535 = 0) :
    (a ||| b) &&& 65535 = 0 := by
  apply Nat.eq_of_testBit_eq
  intro i
  have ta := congrArg (fun z => Nat.testBit z i) ha
  have tb := congrArg (fun z => Nat.testBit z i) hb
  simp only [Nat.testBit_land, Nat.zero_testBit] at ta tb
  simp only [Nat.testBit_land, Nat.testBit_lor, Nat.zero_testBit]
  cases hm : Nat.testBit 65535 i
  · simp
  · rw [hm] at ta tb
    simp only [Bool.and_true] at ta tb
    simp [ta, tb]

/-- Helper: oring a 16-bit value into a word with zero low 16 bits makes the
low 16 bits that value. -/
theorem low16_or (a b : Nat) (ha : a &&& 65535 = 0) (hb : b < 65536) :
    (a ||| b) &&& 65535 = b := by
  apply Nat.eq_of_testBit_eq
  intro i
  simp only [Nat.testBit_land, Nat.testBit_lor]
  have ta := congrArg (fun z => Nat.testBit z i) ha
  simp only [Nat.testBit_land] at ta
  by_cases hi : i < 16
  · have hm : Nat.testBit 65535 i = true := by
      have h : (65535 : Nat) = 2 ^ 16 - 1 := by norm_num
      rw [h, Nat.testBit_two_pow_sub_one]
      simpa using hi
    rcases hta : Nat.testBit a i <;> simp_all
  · have hm : Nat.testBit 65535 i = false := by
      have h : (65535 : Nat) = 2 ^ 16 - 1 := by norm_num
      rw [h, Nat.testBit_two_pow_sub_one]
      simpa using hi
    have hbz : Nat.testBit b i = false := by
      apply Nat.testBit_lt_two_pow
      calc b < 65536 := hb
        _ = 2 ^ 16 := by norm_num
        _ ≤ 2 ^ i := Nat.pow_le_pow_right (by norm_num) (by omega)
    simp [hm, hbz]

/-- Helper: the low 16 bits of a SOPP word are its 16-bit immediate. -/
theorem sopp_low16 (i : AInstr) : sopp_encoding i &&& 65535 = i.imm &&& 65535 := by
  unfold sopp_encoding
  have h1 : ((383 <<< 23) ||| (i.opcode <<< 16)) &&& 65535 = 0 :=
    low16_or_zero _ _ (low16_shiftLeft _ _ (by norm_num))
      (low16_shiftLeft _ _ (by norm_num))
  have hb : i.imm &&& 0xFFFF < 65536 := by
    rw [show (0xFFFF : Nat) = 65535 from rfl, and_65535_eq_mod]
    exact Nat.mod_lt _ (by norm_num)
  rw [Nat.or_assoc] at *
  rw [show (0xFFFF : Nat) = 65535 from rfl]
  rw [← Nat.or_assoc]
  exact low16_or _ _ h1 hb

/-- Helper: emitting one instruction appends its words and its branch
record. -/
theorem emit_instruction_eq (st : List Nat × List (Nat × Nat)) (i : AInstr) :
    emit_instruction st i =
      (st.1 ++ instr_words i, st.2 ++ instr_branch st.1.length i) := by
  unfold emit_instruction instr_words instr_branch
  rcases hf : i.format <;> rcases hb : i.block <;> simp

/-- Helper: emitting a block appends its code. -/
theorem emit_block_fst (blk : List AInstr) :
    ∀ st : List Nat × List (Nat × Nat),
      (emit_block st blk).1 = st.1 ++ block_code blk := by
  induction blk with
  | nil => intro st; simp [emit_block, block_code]
  | cons i rest ih =>
    intro st
    show (emit_block (emit_instruction st i) rest).1 = _
    rw [ih, emit_instruction_eq]
    simp [block_code]

/-- Helper: branch instructions with zero 16-bit immediate preserve the
emission invariant. -/
theorem branchesOk_emit (out : List Nat) (brs : List (Nat × Nat)) (i : AInstr)
    (himm : i.format = AFormat.SOPP → i.block.isSome → i.imm &&& 65535 = 0)
    (h : BranchesOk out brs) :
    BranchesOk (out ++ instr_words i) (brs ++ instr_branch out.length i) := by
  obtain ⟨hm, hp⟩ := h
  constructor
  · intro p hp2
    rcases List.mem_append.1 hp2 with hold | hnew
    · obtain ⟨hlt, hlow⟩ := hm p hold
      refine ⟨by simp; omega, ?_⟩
      rw [List.getD_eq_getElem?_getD, List.getElem?_append_left hlt,
        ← List.getD_eq_getElem?_getD]
      exact hlow
    · unfold instr_branch at hnew
      rcases hf : i.format <;> rw [hf] at hnew <;>
        rcases hb : i.block with _ | t <;> rw [hb] at hnew <;> simp at hnew
      subst hnew
      constructor
      · simp [instr_words]
      · rw [List.getD_eq_getElem?_getD]
        rw [show out.length = out.length + 0 from rfl,
          List.getElem?_append_right (by omega)]
        simp only [Nat.add_sub_cancel_left, instr_words]
        show ((([instr_encoding i] ++ literal_dword i.operands)[0]?).getD 0) &&& 65535 = 0
        simp only [List.getElem?_append_left (by simp : 0 < ([instr_encoding i]).length)]
        simp only [List.getElem?_cons_zero, Option.getD_some]
        have he : instr_encoding i = sopp_encoding i := by
          unfold instr_encoding
          rw [hf]
        rw [he, sopp_low16]
        exact himm hf (by rw [hb]; rfl)
  · rw [List.map_append]
    rw [List.pairwise_append]
    refine ⟨hp, ?_, ?_⟩
    · unfold instr_branch
      rcases i.format <;> rcases i.block <;> simp
    · intro a ha b hb2
      rcases List.mem_map.1 ha with ⟨q, hq, rfl⟩
      have hlt := (hm q hq).1
      rcases hf2 : i.format <;> rcases hb3 : i.block <;>
        simp [instr_branch, hf2, hb3] at hb2
      omega


/-- Helper: the spec-side smallest-fit search over the six-entry table,
rewritten as an if-chain. -/
theorem specSmallestFit_eq (s v : Nat) : specSmallestFit s v =
    (if v ≤ 24 ∧ s ≤ 46 then some (46, 24)
    else if v ≤ 28 ∧ s ≤ 54 then some (54, 28)
    else if v ≤ 32 ∧ s ≤ 62 then some (62, 32)
    else if v ≤ 36 ∧ s ≤ 70 then some (70, 36)
    else if v ≤ 40 ∧ s ≤ 78 then some (78, 40)
    else if v ≤ 48 ∧ s ≤ 94 then some (94, 48)
    else none) := by
  simp only [specSmallestFit, specRegTable, List.find?, decide_eq_true_eq]
  repeat' split
  all_goals simp_all


/-- Helper: the emission invariant is preserved across a whole block. -/
theorem branchesOk_emit_block (blk : List AInstr) :
    ∀ st : List Nat × List (Nat × Nat),
      (∀ i ∈ blk, i.format = AFormat.SOPP → i.block.isSome →
        i.imm &&& 65535 = 0) →
      BranchesOk st.1 st.2 → BranchesOk (emit_block st blk).1 (emit_block st blk).2 := by
  induction blk with
  | nil => intro st _ h; exact h
  | cons i rest ih =>
    intro st hall h
    show BranchesOk (emit_block (emit_instruction st i) rest).1
      (emit_block (emit_instruction st i) rest).2
    refine ih _ (fun j hj => hall j (List.mem_cons_of_mem _ hj)) ?_
    rw [emit_instruction_eq]
    exact branchesOk_emit st.1 st.2 i (hall i (List.mem_cons_self _ _)) h

/-- Helper: the recorded block offsets are the running word counts. -/
theorem emit_program_core_snd (blocks : List (List AInstr)) :
    ∀ acc : (List Nat × List (Nat × Nat)) × List Nat,
      (blocks.foldl
        (fun acc blk => (emit_block acc.1 blk, acc.2 ++ [acc.1.1.length]))
        acc).2 = acc.2 ++ block_starts blocks acc.1.1.length := by
  induction blocks with
  | nil => intro acc; simp [block_starts]
  | cons b bs ih =>
    intro acc
    show (bs.foldl _ (emit_block acc.1 b, acc.2 ++ [acc.1.1.length])).2 = _
    rw [ih]
    have hlen : (emit_block acc.1 b).1.length =
        acc.1.1.length + (block_code b).length := by
      have := emit_block_fst b acc.1
      rw [show (emit_block acc.1 b).1 = (emit_block acc.1 b).1 from rfl, this]
      simp
    rw [hlen]
    simp [block_starts]

/-- Helper: the emission invariant holds for the whole program. -/
theorem branchesOk_core (blocks : List (List AInstr)) :
    ∀ acc : (List Nat × List (Nat × Nat)) × List Nat,
      (∀ blk ∈ blocks, ∀ i ∈ blk, i.format = AFormat.SOPP →
        i.block.isSome → i.imm &&& 65535 = 0) →
      BranchesOk acc.1.1 acc.1.2 →
      BranchesOk
        ((blocks.foldl
          (fun acc blk => (emit_block acc.1 blk, acc.2 ++ [acc.1.1.length]))
          acc).1.1)
        ((blocks.foldl
          (fun acc blk => (emit_block acc.1 blk, acc.2 ++ [acc.1.1.length]))
          acc).1.2) := by
  induction blocks with
  | nil => intro acc _ h; exact h
  | cons b bs ih =>
    intro acc hall h
    show BranchesOk
      ((bs.foldl _ (emit_block acc.1 b, acc.2 ++ [acc.1.1.length])).1.1) _
    exact ih _ (fun blk hblk => hall blk (List.mem_cons_of_mem _ hblk))
      (branchesOk_emit_block b acc.1 (hall b (List.mem_cons_self _ _)) h)

/-- Helper: entry k of the block-start table is the length of the code of
the first k blocks. -/
theorem block_starts_spec (blocks : List (List AInstr)) :
    ∀ off k, k < blocks.length →
      (block_starts blocks off).getD k 0 =
        off + (((blocks.take k).map block_code).join).length := by
  induction blocks with
  | nil => intro off k hk; simp at hk
  | cons b bs ih =>
    intro off k hk
    match k with
    | 0 => simp [block_starts]
    | k + 1 =>
      show (block_starts bs (off + (block_code b).length)).getD k 0 = _
      rw [ih _ k (by simpa using hk)]
      simp
      omega

/-- Helper: patching never changes the stream length. -/
theorem fix_branches_length (brs : List (Nat × Nat)) :
    ∀ out offs, (fix_branches out brs offs).length = out.length := by
  induction brs with
  | nil => intro out offs; rfl
  | cons br rest ih =>
    intro out offs
    show (fix_branches (out.set br.1 _) rest offs).length = _
    rw [ih]
    simp

/-- Helper: patches at other positions leave a word unchanged. -/
theorem fix_branches_getD_of_ne (brs : List (Nat × Nat)) :
    ∀ out offs j, (∀ p ∈ brs, p.1 ≠ j) →
      (fix_branches out brs offs).getD j 0 = out.getD j 0 := by
  induction brs with
  | nil => intro out offs j _; rfl
  | cons br rest ih =>
    intro out offs j hne
    show (fix_branches (out.set br.1 _) rest offs).getD j 0 = _
    rw [ih _ offs j (fun p hp => hne p (List.mem_cons_of_mem _ hp))]
    rw [List.getD_eq_getElem?_getD, List.getD_eq_getElem?_getD]
    rw [List.getElem?_set_ne (hne br (List.mem_cons_self _ _))]
    rw [← List.getD_eq_getElem?_getD]

/-- Helper: after `fix_branches`, the low 16 bits of each recorded branch
word are the two's-complement offset to its target block start. -/
theorem fix_branches_spec (brs : List (Nat × Nat)) :
    ∀ out offs,
      (∀ p ∈ brs, p.1 < out.length ∧ out.getD p.1 0 &&& 65535 = 0) →
      ((brs.map Prod.fst).Pairwise (fun a b => a ≠ b)) →
      ∀ p ∈ brs,
        (fix_branches out brs offs).getD p.1 0 &&& 65535 =
          (((offs.getD p.2 0 : Int) - p.1 - 1) % 65536).toNat := by
  induction brs with
  | nil => intro out offs _ _ p hp; simp at hp
  | cons br rest ih =>
    intro out offs hok hpw p hp
    rw [List.map_cons] at hpw
    have hhead := (List.pairwise_cons.1 hpw).1
    have hpwtail := (List.pairwise_cons.1 hpw).2
    have hbr := hok br (List.mem_cons_self _ _)
    set patched := (out.getD br.1 0) |||
      (((offs.getD br.2 0 : Int) - br.1 - 1) % 65536).toNat with hpatched
    have hstep : fix_branches out (br :: rest) offs =
        fix_branches (out.set br.1 patched) rest offs := rfl
    rcases List.mem_cons.1 hp with rfl | hrest
    · rw [hstep]
      have hne : ∀ q ∈ rest, q.1 ≠ p.1 := by
        intro q hq
        have := hhead q.1 (List.mem_map_of_mem Prod.fst hq)
        omega
      rw [fix_branches_getD_of_ne rest _ offs p.1 hne]
      rw [List.getD_eq_getElem?_getD, List.getElem?_set_self hbr.1]
      simp only [Option.getD_some]
      rw [hpatched]
      apply low16_or
      · exact hbr.2
      · have h1 : (0 : Int) ≤ ((offs.getD p.2 0 : Int) - p.1 - 1) % 65536 :=
          Int.emod_nonneg _ (by norm_num)
        have h2 : ((offs.getD p.2 0 : Int) - p.1 - 1) % 65536 < 65536 :=
          Int.emod_lt_of_pos _ (by norm_num)
        omega
    · rw [hstep]
      refine ih (out.set br.1 patched) offs ?_ hpwtail p hrest
      intro q hq
      have hq1 := hok q (List.mem_cons_of_mem _ hq)
      have hne : br.1 ≠ q.1 := hhead q.1 (List.mem_map_of_mem Prod.fst hq)
      constructor
      · simpa using hq1.1
      · rw [List.getD_eq_getElem?_getD, List.getElem?_set_ne hne,
          ← List.getD_eq_getElem?_getD]
        exact hq1.2


/-- C7: after all blocks are emitted, every recorded branch has its 16-bit
immediate patched to `target_block_start - (branch_index + 1)` (as a 16-bit
two's-complement value), where `block_offset[k]` is the word offset at which
block k's code begins (the total length of the code of the blocks before
it).  The branch instruction itself must carry a zero immediate field, as
the patch ORs into the emitted word. -/
theorem c7_branch_patching (blocks : List (List AInstr))
    (himm : ∀ blk ∈ blocks, ∀ i ∈ blk, i.format = AFormat.SOPP →
      i.block.isSome → i.imm &&& 65535 = 0) :
    (emit_program_core blocks).2 = block_starts blocks 0 ∧
    (∀ k, k < blocks.length →
      (block_starts blocks 0).getD k 0 =
        (((blocks.take k).map block_code).join).length) ∧
    (∀ p ∈ (emit_program_core blocks).1.2,
      (emit_program blocks).getD p.1 0 &&& 65535 =
        ((((emit_program_core blocks).2.getD p.2 0 : Int) - p.1 - 1)
          % 65536).toNat) := by
  have h0 : BranchesOk ((([], []), ([] : List Nat)) : (List Nat × List (Nat × Nat)) × List Nat).1.1
      ((([], []), ([] : List Nat)) : (List Nat × List (Nat × Nat)) × List Nat).1.2 := by
    constructor
    · intro p hp
      simp at hp
    · simp
  have hcore := branchesOk_core blocks (([], []), []) himm h0
  refine ⟨?_, ?_, ?_⟩
  · have h := emit_program_core_snd blocks (([], []), [])
    simpa [emit_program_core] using h
  · intro k hk
    rw [block_starts_spec blocks 0 k hk]
    omega
  · intro p hp
    show (fix_branches (emit_program_core blocks).1.1
      (emit_program_core blocks).1.2 (emit_program_core blocks).2).getD p.1 0 &&&
        65535 = _
    exact fix_branches_spec _ _ _ hcore.1 hcore.2 p hp

/-- Witness for C7: a two-block program whose second block is a single
branch back to block 0; the patched word's low 16 bits encode the offset
0 - (1 + 1) = -2, i.e. 65534. -/
theorem c7_branch_patching_witness :
    (emit_program
        [[⟨AFormat.SOP1, 0, [], [], 0, none⟩],
         [⟨AFormat.SOPP, 2, [], [], 0, some 0⟩]]).getD 1 0 &&& 65535 =
      ((((emit_program_core
        [[⟨AFormat.SOP1, 0, [], [], 0, none⟩],
         [⟨AFormat.SOPP, 2, [], [], 0, some 0⟩]]).2.getD 0 0 : Int) - 1 - 1)
          % 65536).toNat :=
  (c7_branch_patching
    [[⟨AFormat.SOP1, 0, [], [], 0, none⟩],
     [⟨AFormat.SOPP, 2, [], [], 0, some 0⟩]] (by decide)).2.2 (1, 0) (by decide)

/-- Helper: the trailing-literal loop pushes the value of the first literal
operand, if any. -/
theorem literal_dword_eq_find (ops : List Operand) :
    literal_dword ops =
      match ops.find? (fun o => o.isLiteral) with
      | some o => [o.constantValue]
      | none => [] := by
  induction ops with
  | nil => rfl
  | cons o rest ih =>
    by_cases h : o.isLiteral
    · rw [List.find?_cons_of_pos _ h]
      unfold literal_dword
      rw [if_pos h]
    · rw [List.find?_cons_of_neg _ (by simpa using h)]
      unfold literal_dword
      rw [if_neg (by simpa using h)]
      exact ih

/-- Helper: the constant-operand register is 255 exactly when the value has
no dedicated inline encoding. -/
theorem constReg_eq_255_iff (v : Nat) (hv : v < 2 ^ 32) :
    (constReg v = 255 ↔
      ¬(v ≤ 64 ∨ 0xFFFFFFF0 ≤ v ∨
        v ∈ ([0x3f000000, 0xbf000000, 0x3f800000, 0xbf800000,
              0x40000000, 0xc0000000, 0x40800000, 0xc0800000,
              0x3e22f983] : List Nat))) := by
  unfold constReg
  by_cases h1 : v ≤ 64
  · rw [if_pos h1]
    simp only [List.mem_cons, List.not_mem_nil, or_false]
    omega
  rw [if_neg h1]
  by_cases h2 : 0xFFFFFFF0 ≤ v
  · rw [if_pos h2]
    have hmod : (192 + 2 ^ 32 - v) % 2 ^ 32 = 192 + 2 ^ 32 - v :=
      Nat.mod_eq_of_lt (by omega)
    rw [hmod]
    simp only [List.mem_cons, List.not_mem_nil, or_false]
    omega
  rw [if_neg h2]
  split_ifs with h3 h4 h5 h6 h7 h8 h9 h10 h11 <;>
    simp only [List.mem_cons, List.not_mem_nil, or_false] <;>
    norm_num <;> omega

/-- C9: the `Operand(uint32_t)` constructor gives dedicated inline registers
exactly to 0..64 (register 128+v), the two's-complement range -16..-1, and
the nine special float patterns; every other constant is a literal at
register 255, and the assembler emits a literal's 32-bit value as one
trailing word immediately after the instruction's encoding word (the first
literal operand, via the trailing-literal loop). -/
theorem c9_inline_constants (v : Nat) (hv : v < 2 ^ 32) :
    ((v ≤ 64 → constReg v = 128 + v) ∧
     (0xFFFFFFF0 ≤ v → constReg v = 192 + 2 ^ 32 - v) ∧
     (Operand.isLiteral (Operand.ofConst v) = true ↔
       ¬(v ≤ 64 ∨ 0xFFFFFFF0 ≤ v ∨
         v ∈ ([0x3f000000, 0xbf000000, 0x3f800000, 0xbf800000,
               0x40000000, 0xc0000000, 0x40800000, 0xc0800000,
               0x3e22f983] : List Nat)))) ∧
    (∀ (st : List Nat × List (Nat × Nat)) (i : AInstr) (o : Operand),
      i.operands.find? (fun o => o.isLiteral) = some o →
      (emit_instruction st i).1 =
        st.1 ++ [instr_encoding i] ++ [o.constantValue]) := by
  refine ⟨⟨?_, ?_, ?_⟩, ?_⟩
  · intro h64
    unfold constReg
    rw [if_pos h64]
  · intro hneg
    unfold constReg
    rw [if_neg (by omega), if_pos hneg]
    apply Nat.mod_eq_of_lt
    omega
  · have hlit : Operand.isLiteral (Operand.ofConst v) = true ↔ constReg v = 255 := by
      unfold Operand.isLiteral Operand.isConstant Operand.physReg
      simp
    rw [hlit]
    exact constReg_eq_255_iff v hv
  · intro st i o hfind
    rw [emit_instruction_eq]
    unfold instr_words
    rw [literal_dword_eq_find, hfind]
    simp

/-- Witness for C9 at v = 1000 (a literal: emitted as a trailing word) on a
SOP1 instruction with a literal operand. -/
theorem c9_inline_constants_witness :
    Operand.isLiteral (Operand.ofConst 1000) = true ∧
    (emit_instruction ([], [])
        ⟨AFormat.SOP1, 0, [Operand.ofConst 1000], [], 0, none⟩).1 =
      [] ++ [instr_encoding ⟨AFormat.SOP1, 0, [Operand.ofConst 1000], [], 0, none⟩]
        ++ [1000] :=
  ⟨((c9_inline_constants 1000 (by norm_num)).1.2.2).2 (by decide),
   (c9_inline_constants 1000 (by norm_num)).2 ([], [])
     ⟨AFormat.SOP1, 0, [Operand.ofConst 1000], [], 0, none⟩
     (Operand.ofConst 1000) (by decide)⟩


/-! ### Divergence analysis lemmas (C1, C8) -/

/-- Helper: setting an index to false leaves it reading false. -/
theorem getD_set_false (t : List Bool) (d : Nat) :
    (t.set d false).getD d false = false := by
  rcases Nat.lt_or_ge d t.length with h | h
  · rw [List.getD_eq_getElem?_getD, List.getElem?_set_self (by simpa using h)]
    rfl
  · rw [List.set_eq_of_length_le (by simpa using h)]
    rw [List.getD_eq_getElem?_getD, List.getElem?_eq_none (by simpa using h)]
    rfl

/-- Helper: setting one index leaves the others unchanged. -/
theorem getD_set_other (t : List Bool) (d k : Nat) (v : Bool) (h : k ≠ d) :
    (t.set d v).getD k false = t.getD k false := by
  rw [List.getD_eq_getElem?_getD, List.getD_eq_getElem?_getD,
    List.getElem?_set_ne (by omega)]

/-- Helper: setting any index to true can only grow the map. -/
theorem mapLE_set_true (t : List Bool) (d : Nat) : mapLE t (t.set d true) := by
  intro k hk
  by_cases h : k = d
  · subst h
    rcases Nat.lt_or_ge k t.length with hl | hl
    · rw [List.getD_eq_getElem?_getD, List.getElem?_set_self (by simpa using hl)]
      rfl
    · rw [List.getD_eq_getElem?_getD,
        List.getElem?_eq_none (by simpa using hl)] at hk
      cases hk
  · rw [getD_set_other t d k true h]
    exact hk

/-- Helper: overwriting an index that reads false can only grow the map. -/
theorem mapLE_set_of_false (t : List Bool) (d : Nat) (v : Bool)
    (h : t.getD d false = false) : mapLE t (t.set d v) := by
  intro k hk
  by_cases he : k = d
  · subst he
    rw [hk] at h
    cases h
  · rw [getD_set_other t d k v he]
    exact hk

/-- Helper: the reflexive map order. -/
theorem mapLE_refl (t : List Bool) : mapLE t t := fun _ h => h

/-- Helper: a visit changes only the instruction's written destinations. -/
theorem visit_untouched (t : List Bool) (i : DInstr) (k : Nat)
    (h : k ∉ i.destsWritten) :
    (visit_instr t i).1.getD k false = t.getD k false := by
  cases i with
  | alu dest srcs =>
    simp [DInstr.destsWritten] at h
    simp only [visit_instr]
    unfold visit_alu
    split_ifs <;> simp [List.getElem?_set_ne (show dest ≠ k by omega)]
  | intrinsic kind hasDest dest srcs =>
    simp only [visit_instr]
    unfold visit_intrinsic
    rcases hasDest with _ | _
    · simp
    · simp [DInstr.destsWritten] at h
      split_ifs <;> simp [List.getElem?_set_ne (show dest ≠ k by omega)]
  | tex dest srcs =>
    simp [DInstr.destsWritten] at h
    simp only [visit_instr]
    unfold visit_tex
    split_ifs <;> simp [List.getElem?_set_ne (show dest ≠ k by omega)]
  | phi dest srcs conds =>
    simp [DInstr.destsWritten] at h
    simp only [visit_instr]
    unfold visit_phi
    split_ifs <;> simp [List.getElem?_set_ne (show dest ≠ k by omega)]
  | parallelCopy entries =>
    simp only [DInstr.destsWritten, List.mem_map] at h
    simp only [visit_instr]
    unfold visit_parallel_copy
    suffices hgen : ∀ (rest : List (Nat × Nat)) (acc : List Bool × Bool),
        (∀ e ∈ rest, k ≠ e.1) →
        acc.1.getD k false = t.getD k false →
        (rest.foldl
          (fun acc e =>
            if acc.1.getD e.1 false then acc
            else (acc.1.set e.1 (acc.1.getD e.2 false),
              acc.2 || acc.1.getD e.2 false))
          acc).1.getD k false = t.getD k false by
      refine hgen entries (t, false) ?_ rfl
      intro e he hcontra
      exact h ⟨e, he, by omega⟩
    intro rest
    induction rest with
    | nil => intro acc _ hacc; exact hacc
    | cons e rest2 ih =>
      intro acc hne hacc
      show (rest2.foldl _
        (if acc.1.getD e.1 false then acc else _)).1.getD k false = _
      apply ih _ (fun e2 he2 => hne e2 (by simp [he2]))
      split_ifs
      · exact hacc
      · show (acc.1.set e.1 _).getD k false = _
        rw [getD_set_other _ _ _ _ (hne e (by simp))]
        exact hacc
  | loadConst dest =>
    simp [DInstr.destsWritten] at h
    simp only [visit_instr]
    unfold visit_load_const
    simp [List.getElem?_set_ne (show dest ≠ k by omega)]
  | ssaUndef dest =>
    simp [DInstr.destsWritten] at h
    simp only [visit_instr]
    unfold visit_ssa_undef
    simp [List.getElem?_set_ne (show dest ≠ k by omega)]
  | deref dest uses =>
    simp [DInstr.destsWritten] at h
    simp only [visit_instr]
    unfold visit_deref
    split_ifs <;> simp [List.getElem?_set_ne (show dest ≠ k by omega)]
  | jump =>
    rfl


/-- Helper: a visit never resets a divergent index to uniform, provided the
instruction's statically-uniform destinations read uniform beforehand. -/
theorem visit_mono (t : List Bool) (i : DInstr)
    (hstatic : ∀ d ∈ staticFalseDests i, t.getD d false = false) :
    mapLE t (visit_instr t i).1 := by
  cases i with
  | alu dest srcs =>
    simp only [visit_instr]
    unfold visit_alu
    split_ifs with h1 h2
    · exact mapLE_refl t
    · exact mapLE_set_true t dest
    · exact mapLE_set_of_false t dest false (by simpa using h1)
  | intrinsic kind hasDest dest srcs =>
    simp only [visit_instr]
    unfold visit_intrinsic
    rcases hasDest with _ | _
    · simp only [Bool.not_false, if_pos rfl]
      exact mapLE_refl t
    · simp only [Bool.not_true]
      rw [if_neg (by simp)]
      split_ifs with h1
      · exact mapLE_refl t
      · exact mapLE_set_of_false t dest _ (by simpa using h1)
  | tex dest srcs =>
    simp only [visit_instr]
    unfold visit_tex
    split_ifs with h1
    · exact mapLE_refl t
    · exact mapLE_set_of_false t dest _ (by simpa using h1)
  | phi dest srcs conds =>
    simp only [visit_instr]
    unfold visit_phi
    split_ifs with h1 h2 h3 h4
    · exact mapLE_refl t
    · exact mapLE_set_true t dest
    · exact mapLE_refl t
    · exact mapLE_set_true t dest
    · exact mapLE_set_of_false t dest false (by simpa using h1)
  | parallelCopy entries =>
    simp only [visit_instr]
    unfold visit_parallel_copy
    suffices hgen : ∀ (rest : List (Nat × Nat)) (acc : List Bool × Bool),
        mapLE t acc.1 →
        mapLE t (rest.foldl
          (fun acc e =>
            if acc.1.getD e.1 false then acc
            else (acc.1.set e.1 (acc.1.getD e.2 false),
              acc.2 || acc.1.getD e.2 false))
          acc).1 by
      exact hgen entries (t, false) (mapLE_refl t)
    intro rest
    induction rest with
    | nil => intro acc hacc; exact hacc
    | cons e rest2 ih =>
      intro acc hacc
      show mapLE t (rest2.foldl _
        (if acc.1.getD e.1 false then acc else _)).1
      apply ih
      split_ifs with h1
      · exact hacc
      · show mapLE t ((acc.1.set e.1 _ : List Bool))
        intro k hk
        exact mapLE_set_of_false acc.1 e.1 _ (by simpa using h1) k (hacc k hk)
  | loadConst dest =>
    simp only [visit_instr]
    unfold visit_load_const
    exact mapLE_set_of_false t dest false
      (hstatic dest (by simp [staticFalseDests]))
  | ssaUndef dest =>
    simp only [visit_instr]
    unfold visit_ssa_undef
    exact mapLE_set_of_false t dest false
      (hstatic dest (by simp [staticFalseDests]))
  | deref dest uses =>
    simp only [visit_instr]
    unfold visit_deref
    split_ifs with h1
    · exact mapLE_set_of_false t dest false
        (hstatic dest (by simp [staticFalseDests, h1]))
    · exact mapLE_set_true t dest
  | jump =>
    exact mapLE_refl t

/-- Helper: the statically-uniform destinations are written destinations. -/
theorem staticFalse_subset (i : DInstr) :
    ∀ d ∈ staticFalseDests i, d ∈ i.destsWritten := by
  cases i <;> simp [staticFalseDests, DInstr.destsWritten] <;> split_ifs <;> simp

/-- Helper: a visit leaves the instruction's statically-uniform
destinations uniform. -/
theorem visit_staticfalse (t : List Bool) (i : DInstr) :
    ∀ d ∈ staticFalseDests i, (visit_instr t i).1.getD d false = false := by
  cases i with
  | loadConst dest =>
    intro d hd
    simp [staticFalseDests] at hd
    subst hd
    simp only [visit_instr]
    unfold visit_load_const
    apply getD_set_false
  | ssaUndef dest =>
    intro d hd
    simp [staticFalseDests] at hd
    subst hd
    simp only [visit_instr]
    unfold visit_ssa_undef
    apply getD_set_false
  | deref dest uses =>
    intro d hd
    simp only [staticFalseDests] at hd
    split_ifs at hd with h1
    · simp at hd
      subst hd
      simp only [visit_instr]
      unfold visit_deref
      rw [if_pos h1]
      apply getD_set_false
    · simp at hd
  | alu dest srcs => intro d hd; simp [staticFalseDests] at hd
  | intrinsic kind hasDest dest srcs => intro d hd; simp [staticFalseDests] at hd
  | tex dest srcs => intro d hd; simp [staticFalseDests] at hd
  | phi dest srcs conds => intro d hd; simp [staticFalseDests] at hd
  | parallelCopy entries => intro d hd; simp [staticFalseDests] at hd
  | jump => intro d hd; simp [staticFalseDests] at hd

/-- Helper: with SSA-distinct destinations, two instructions writing a
common index are the same instruction. -/
theorem writes_unique (instrs : List DInstr)
    (hw : ((instrs.map DInstr.destsWritten).join).Nodup) :
    ∀ i ∈ instrs, ∀ j ∈ instrs, ∀ d,
      d ∈ i.destsWritten → d ∈ j.destsWritten → i = j := by
  induction instrs with
  | nil => intro i hi; simp at hi
  | cons a l ih =>
    simp only [List.map_cons, List.join_cons, List.nodup_append] at hw
    obtain ⟨ha, hl, hdisj⟩ := hw
    intro i hi j hj d hdi hdj
    rcases List.mem_cons.1 hi with rfl | hi2 <;>
      rcases List.mem_cons.1 hj with rfl | hj2
    · rfl
    · exfalso
      exact hdisj hdi (List.mem_join.2 ⟨j.destsWritten,
        List.mem_map_of_mem _ hj2, hdj⟩)
    · exfalso
      exact hdisj hdj (List.mem_join.2 ⟨i.destsWritten,
        List.mem_map_of_mem _ hi2, hdi⟩)
    · exact ih hl i hi2 j hj2 d hdi hdj

/-- Helper: a visit of any program instruction preserves the
statically-uniform invariant, given SSA-distinct destinations. -/
theorem staticok_step (instrs : List DInstr) (t : List Bool) (i : DInstr)
    (hi : i ∈ instrs)
    (hw : ((instrs.map DInstr.destsWritten).join).Nodup)
    (h : StaticOK instrs t) : StaticOK instrs (visit_instr t i).1 := by
  intro j hj d hd
  by_cases hdw : d ∈ i.destsWritten
  · have hij : i = j :=
      writes_unique instrs hw i hi j hj d hdw (staticFalse_subset j d hd)
    subst hij
    exact visit_staticfalse t i d hd
  · rw [visit_untouched t i d hdw]
    exact h j hj d hd


/-- Helper: the divergence map reached by a pass, ignoring the changed
flag. -/
theorem divergence_pass_fst (l : List DInstr) :
    ∀ (t : List Bool) (b : Bool),
      (l.foldl
        (fun acc i =>
          let r := visit_instr acc.1 i
          (r.1, acc.2 || r.2))
        (t, b)).1 = l.foldl (fun m i => (visit_instr m i).1) t := by
  induction l with
  | nil => intro t b; rfl
  | cons i rest ih => intro t b; exact ih (visit_instr t i).1 _

/-- Helper: the last map of a pass trace is the pass result. -/
theorem trace_pass_last (l : List DInstr) :
    ∀ t : List Bool, (divergence_trace_pass t l).getLastD t =
      l.foldl (fun m i => (visit_instr m i).1) t := by
  induction l with
  | nil => intro t; rfl
  | cons i rest ih =>
    intro t
    show ((visit_instr t i).1 :: divergence_trace_pass (visit_instr t i).1 rest).getLastD t = _
    rw [List.getLastD_cons]
    exact ih (visit_instr t i).1

/-- Helper: one pass yields a monotone chain of maps and preserves the
statically-uniform invariant. -/
theorem trace_pass_chain (instrs : List DInstr)
    (hw : ((instrs.map DInstr.destsWritten).join).Nodup) :
    ∀ (l : List DInstr) (t : List Bool), (∀ i ∈ l, i ∈ instrs) →
      StaticOK instrs t →
      List.Chain' mapLE (t :: divergence_trace_pass t l) ∧
      StaticOK instrs (l.foldl (fun m i => (visit_instr m i).1) t) := by
  intro l
  induction l with
  | nil =>
    intro t _ hst
    exact ⟨List.chain'_singleton t, hst⟩
  | cons i rest ih =>
    intro t hl hst
    have hstep : mapLE t (visit_instr t i).1 :=
      visit_mono t i (fun d hd => hst i (hl i (by simp)) d hd)
    have hst2 : StaticOK instrs (visit_instr t i).1 :=
      staticok_step instrs t i (hl i (by simp)) hw hst
    have hrest := ih (visit_instr t i).1
      (fun j hj => hl j (by simp [hj])) hst2
    refine ⟨?_, hrest.2⟩
    show List.Chain' mapLE
      (t :: (visit_instr t i).1 :: divergence_trace_pass (visit_instr t i).1 rest)
    rw [List.chain'_cons]
    exact ⟨hstep, hrest.1⟩

/-- Helper: getLast? of a cons is the getLastD of its tail. -/
theorem getLast?_cons_eq {α : Type} (a : α) (l : List α) :
    (a :: l).getLast? = some (l.getLastD a) := by
  induction l generalizing a with
  | nil => rfl
  | cons b l2 ih =>
    rw [List.getLast?_cons_cons, ih b, List.getLastD_cons]

/-- Helper: the full fixpoint run yields a monotone chain of maps. -/
theorem run_chain (instrs : List DInstr)
    (hw : ((instrs.map DInstr.destsWritten).join).Nodup) :
    ∀ (fuel : Nat) (t : List Bool), StaticOK instrs t →
      List.Chain' mapLE (t :: divergence_trace fuel instrs t) := by
  intro fuel
  induction fuel with
  | zero => intro t _; exact List.chain'_singleton t
  | succ fuel ih =>
    intro t hst
    unfold divergence_trace
    show List.Chain' mapLE (t :: (divergence_trace_pass t instrs ++
      if (divergence_pass t instrs).2 = true then
        divergence_trace fuel instrs (divergence_pass t instrs).1 else []))
    obtain ⟨hchain, hstfold⟩ :=
      trace_pass_chain instrs hw instrs t (fun _ h => h) hst
    have hfold : (divergence_pass t instrs).1 =
        instrs.foldl (fun m i => (visit_instr m i).1) t :=
      divergence_pass_fst instrs t false
    by_cases hb : (divergence_pass t instrs).2
    · rw [if_pos hb]
      have hnext : List.Chain' mapLE
          ((divergence_pass t instrs).1 ::
            divergence_trace fuel instrs (divergence_pass t instrs).1) := by
        apply ih
        rw [hfold]
        exact hstfold
      show List.Chain' mapLE ((t :: divergence_trace_pass t instrs) ++
        divergence_trace fuel instrs (divergence_pass t instrs).1)
      rw [List.chain'_append]
      refine ⟨hchain, (List.chain'_cons'.1 hnext).2, ?_⟩
      intro x hx y hy
      rw [getLast?_cons_eq, trace_pass_last instrs t, ← hfold] at hx
      have hxeq : x = (divergence_pass t instrs).1 := by
        injection hx with h
        exact h.symm
      subst hxeq
      exact (List.chain'_cons'.1 hnext).1 y hy
    · rw [if_neg hb]
      simpa using hchain


/-- C8: throughout the fixpoint iteration, the divergence map only ever
changes from uniform to divergent: the sequence of maps after each
individual visit is a monotone chain, for any SSA program (every value
written by exactly one instruction) and any iteration budget. -/
theorem c8_divergence_monotone (instrs : List DInstr) (alloc fuel : Nat)
    (hw : ((instrs.map DInstr.destsWritten).join).Nodup) :
    List.Chain' mapLE
      (List.replicate alloc false ::
        divergence_trace fuel instrs (List.replicate alloc false)) := by
  apply run_chain instrs hw fuel
  intro i _ d _
  rw [List.getD_eq_getElem?_getD, List.getElem?_replicate]
  split_ifs <;> rfl

/-- Witness for C8: a two-instruction program (a divergent intrinsic read
by an ALU op listed before it) that needs a second pass; the per-visit map
chain is monotone. -/
theorem c8_divergence_monotone_witness :
    List.Chain' mapLE
      (List.replicate 3 false ::
        divergence_trace 4
          [DInstr.alu 1 [0],
           DInstr.intrinsic IntrinsicKind.otherIntr true 0 []]
          (List.replicate 3 false)) :=
  c8_divergence_monotone
    [DInstr.alu 1 [0], DInstr.intrinsic IntrinsicKind.otherIntr true 0 []]
    3 4 (by decide)

/-- C1 as stated is false on the code: a gamma phi whose operands are all
undef but one is kept uniform without consulting the branch condition.
Here the condition (index 0) is divergent, both operands are uniform, one
operand is an undef — the claim says the phi (index 3) must be divergent,
but `visit_phi` leaves it uniform. -/
theorem c1_counterexample :
    ¬ (((visit_phi [true, false, false, false] 3 [(1, false), (2, true)]
          [0]).1.getD 3 false = true) ↔
       (([true, false, false, false].getD 0 false = true) ∨
        ([(1, false), (2, true)].any
          (fun s => [true, false, false, false].getD s.1 false)) = true)) := by
  decide

/-- C1 (amended): for a gamma phi not yet marked divergent, the visit marks
it divergent iff some operand is divergent, or the preceding if condition
is divergent and at least two operands are not undefs (a phi with all
operands but at most one undef stays uniform regardless of the
condition). -/
theorem c1_gamma_phi (t : List Bool) (dest : Nat) (srcs : List (Nat × Bool))
    (cond : Nat) (hdest : t.getD dest false = false) (hlen : dest < t.length) :
    ((visit_phi t dest srcs [cond]).1.getD dest false = true ↔
      ((srcs.any (fun s => t.getD s.1 false)) = true ∨
       (2 ≤ (srcs.filter (fun s => !s.2)).length ∧
        t.getD cond false = true))) := by
  unfold visit_phi
  rw [if_neg (by simp only [hdest]; exact Bool.false_ne_true)]
  have hset_true : (t.set dest true).getD dest false = true := by
    rw [List.getD_eq_getElem?_getD, List.getElem?_set_self (by simpa using hlen)]
    rfl
  by_cases h1 : (srcs.any (fun s => t.getD s.1 false)) = true
  · rw [if_pos h1]
    exact ⟨fun _ => Or.inl h1, fun _ => hset_true⟩
  · rw [if_neg h1]
    by_cases h2 : (srcs.filter (fun s => !s.2)).length ≤ 1
    · rw [if_pos h2]
      rw [hdest]
      constructor
      · intro h
        cases h
      · intro h
        rcases h with h | ⟨hc, _⟩
        · exact absurd h h1
        · omega
    · rw [if_neg h2]
      by_cases h3 : (List.any [cond] (fun c => t.getD c false)) = true
      · rw [if_pos h3]
        simp only [List.any_cons, List.any_nil, Bool.or_false] at h3
        exact ⟨fun _ => Or.inr ⟨by omega, h3⟩, fun _ => hset_true⟩
      · rw [if_neg h3]
        simp only [List.any_cons, List.any_nil, Bool.or_false] at h3
        rw [getD_set_false t dest]
        constructor
        · intro h
          cases h
        · intro h
          rcases h with h | ⟨_, hc⟩
          · exact absurd h h1
          · exact absurd hc (by simpa using h3)

/-- Witness for C1 (amended), at a gamma phi with two non-undef uniform
operands under a divergent condition: marked divergent. -/
theorem c1_gamma_phi_witness :
    ((visit_phi [true, false, false, false] 3 [(1, false), (2, false)]
        [0]).1.getD 3 false = true ↔
      (([(1, false), (2, false)].any
          (fun s => [true, false, false, false].getD s.1 false)) = true ∨
       (2 ≤ ([(1, false), (2, false)].filter (fun s => !s.2)).length ∧
        [true, false, false, false].getD 0 false = true))) :=
  c1_gamma_phi [true, false, false, false] 3 [(1, false), (2, false)] 0
    (by decide) (by decide)


/-! ### Spill-slot coloring lemmas (C4) -/

/-- Helper: getD after set at the same (in- or out-of-range) index. -/
theorem listSet_getD_self {α : Type} (l : List α) (i : Nat) (v d : α)
    (h : i < l.length) : (l.set i v).getD i d = v := by
  rw [List.getD_eq_getElem?_getD, List.getElem?_set_self (by simpa using h)]
  rfl

/-- Helper: getD after set at a different index. -/
theorem listSet_getD_ne {α : Type} (l : List α) (i j : Nat) (v d : α)
    (h : i ≠ j) : (l.set i v).getD j d = l.getD j d := by
  rw [List.getD_eq_getElem?_getD, List.getD_eq_getElem?_getD,
    List.getElem?_set_ne h]

/-- Helper: reading an assignment just written. -/
theorem listSet_getD_some (l : List (Option Nat)) (i v s : Nat)
    (h : (l.set i (some v)).getD i none = some s) (h0 : l.getD i none = none) :
    s = v := by
  rcases Nat.lt_or_ge i l.length with hl | hl
  · rw [listSet_getD_self l i (some v) none hl] at h
    injection h with h
    exact h.symm
  · rw [List.set_eq_of_length_le (by simpa using hl)] at h
    rw [h] at h0
    cases h0

/-- Helper: padding the slot-interference vector changes no entry. -/
theorem slotInsert_pad_getD (si : List (List Nat)) (n : Nat) (d : Nat) :
    (si ++ List.replicate n []).getD d [] = si.getD d [] := by
  rcases Nat.lt_or_ge d si.length with h | h
  · rw [List.getD_eq_getElem?_getD, List.getElem?_append_left (by simpa using h),
      ← List.getD_eq_getElem?_getD]
  · rw [List.getD_eq_getElem?_getD, List.getD_eq_getElem?_getD,
      List.getElem?_eq_none (l := si) (by simpa using h)]
    rcases Nat.lt_or_ge d (si.length + n) with h2 | h2
    · rw [List.getElem?_append_right (by simpa using h)]
      rw [List.getElem?_replicate, if_pos (by omega)]
      rfl
    · rw [List.getElem?_eq_none (by simp; omega)]

/-- Helper: the entry written by `slotInsert`, and all others. -/
theorem slotInsert_getD (si : List (List Nat)) (i : Nat) (xs : List Nat)
    (d : Nat) :
    (slotInsert si i xs).getD d [] =
      if d = i then si.getD i [] ++ xs else si.getD d [] := by
  unfold slotInsert
  have hlen : i < (si ++ List.replicate (i + 1 - si.length) []).length := by
    simp
    omega
  by_cases h : d = i
  · subst h
    rw [if_pos rfl, listSet_getD_self _ _ _ _ hlen, slotInsert_pad_getD]
  · rw [if_neg h, listSet_getD_ne _ _ _ _ _ (fun hc => h hc.symm),
      slotInsert_pad_getD]

/-- Helper: unfolding one step of `insertRange`. -/
theorem insertRange_succ (si : List (List Nat)) (lo n : Nat) (xs : List Nat) :
    insertRange si lo (n + 1) xs =
      slotInsert (insertRange si lo n xs) (lo + n) xs := by
  unfold insertRange
  rw [List.range_succ, List.foldl_append]
  rfl

/-- Helper: `insertRange` only grows each entry. -/
theorem insertRange_mono (si : List (List Nat)) (lo n : Nat) (xs : List Nat)
    (d x : Nat) (h : x ∈ si.getD d []) :
    x ∈ (insertRange si lo n xs).getD d [] := by
  induction n with
  | zero => exact h
  | succ n ih =>
    rw [insertRange_succ, slotInsert_getD]
    by_cases hd : d = lo + n
    · rw [if_pos hd]
      exact List.mem_append_left _ (hd ▸ ih)
    · rw [if_neg hd]
      exact ih

/-- Helper: `insertRange` records the set on every dword of the window. -/
theorem insertRange_mem (si : List (List Nat)) (lo n : Nat) (xs : List Nat)
    (d x : Nat) (h1 : lo ≤ d) (hx : x ∈ xs) :
    d < lo + n → x ∈ (insertRange si lo n xs).getD d [] := by
  induction n with
  | zero => intro h2; omega
  | succ n ih =>
    intro h2
    rw [insertRange_succ, slotInsert_getD]
    by_cases hd : d = lo + n
    · rw [if_pos hd]
      exact List.mem_append_right _ hx
    · rw [if_neg hd]
      exact ih (by omega)

/-- Helper: sgpr- and vgpr-class values occupy at least one dword. -/
theorem sizeOf_pos_of_not_scc (rc : RegClass)
    (h : typeOf rc ≠ RegType.scc) : 1 ≤ sizeOf rc := by
  rcases rc <;> first | (exfalso; exact h rfl) | decide

/-- Helper: reading the replicate-none initial assignment. -/
theorem replicate_none_getD (n i : Nat) :
    (List.replicate n (none : Option Nat)).getD i none = none := by
  rw [List.getD_eq_getElem?_getD, List.getElem?_replicate]
  split_ifs <;> rfl


/-- Helper: one candidate step of a coloring pass preserves the coloring
invariants. -/
theorem color_step_inv (ids : List SpillInfo) (bank : RegType)
    (slot_idx : Nat) (st : List (Option Nat) × List (List Nat) × Bool)
    (id : Nat) (hbank : bank ≠ RegType.scc)
    (hinv : ColorInv ids st.1 st.2.1) :
    ColorInv ids (color_step ids bank slot_idx st id).1
      (color_step ids bank slot_idx st id).2.1 := by
  obtain ⟨hcov, hdis, hstr, hbk⟩ := hinv
  unfold color_step
  dsimp only
  split_ifs with h1 h2 h3
  · exact ⟨hcov, hdis, hstr, hbk⟩
  · exact ⟨hcov, hdis, hstr, hbk⟩
  · exact ⟨hcov, hdis, hstr, hbk⟩
  · -- assignment branch
    have h0 : st.1.getD id none = none := by
      rcases h : st.1.getD id none with _ | v
      · rfl
      · rw [h] at h1
        simp at h1
    simp only [List.any_eq_true, List.mem_range, not_exists, not_and,
      Bool.or_eq_true, decide_eq_true_eq, Bool.and_eq_true, not_or] at h3
    have hchk : ∀ k, k < sizeOf (rcOf ids id) →
        (id ∉ st.2.1.getD (slot_idx + k) []) ∧
        (bank = RegType.vgpr → (slot_idx + k) / 64 = slot_idx / 64) := by
      intro k hk
      have := h3 k hk
      constructor
      · exact this.1
      · intro hv
        have h2c := this.2
        rw [hv] at h2c
        simp at h2c
        exact h2c
    have hcls : typeOf (rcOf ids id) = bank := by
      by_contra hc
      exact h2 hc
    have hszid : 1 ≤ sizeOf (rcOf ids id) := by
      apply sizeOf_pos_of_not_scc
      rw [hcls]
      exact hbank
    have hgetD_eq : ∀ i s, i ≠ id →
        ((st.1.set id (some slot_idx)).getD i none = some s ↔
          st.1.getD i none = some s) := by
      intro i s hne
      rw [listSet_getD_ne _ _ _ _ _ (fun hc => hne hc.symm)]
    have hgetD_id : ∀ s,
        (st.1.set id (some slot_idx)).getD id none = some s → s = slot_idx :=
      fun s hs => listSet_getD_some st.1 id slot_idx s hs h0
    refine ⟨?_, ?_, ?_, ?_⟩
    · -- CoverOK
      intro i s hs d hd1 hd2 x hx
      by_cases hi : i = id
      · subst hi
        have hseq := hgetD_id s hs
        subst hseq
        exact insertRange_mem _ _ _ _ _ _ hd1 hx hd2
      · rw [hgetD_eq i s hi] at hs
        exact insertRange_mono _ _ _ _ _ _ (hcov i s hs d hd1 hd2 x hx)
    · -- DisjointOK
      intro i j s1 s2 hne hj hi hsi hsj
      by_cases hii : i = id <;> by_cases hjj : j = id
      · exact absurd (hii.trans hjj.symm) hne
      · -- i is the new assignment
        subst hii
        have hs1 := hgetD_id s1 hsi
        subst hs1
        rw [hgetD_eq j s2 hjj] at hsj
        by_contra hcon
        push_neg at hcon
        have hszj : 1 ≤ sizeOf (rcOf ids j) := by
          apply sizeOf_pos_of_not_scc
          exact hbk j s2 hsj
        set d := max s1 s2 with hd
        have hd1 : s1 ≤ d := le_max_left _ _
        have hd2 : d < s1 + sizeOf (rcOf ids i) := by omega
        have hd3 : s2 ≤ d := le_max_right _ _
        have hd4 : d < s2 + sizeOf (rcOf ids j) := by omega
        have hidin : i ∈ st.2.1.getD d [] :=
          hcov j s2 hsj d hd3 hd4 i hi
        have := (hchk (d - s1) (by omega)).1
        rw [show s1 + (d - s1) = d by omega] at this
        exact this hidin
      · -- j is the new assignment
        subst hjj
        have hs2 := hgetD_id s2 hsj
        subst hs2
        rw [hgetD_eq i s1 hii] at hsi
        by_contra hcon
        push_neg at hcon
        have hszi : 1 ≤ sizeOf (rcOf ids i) := by
          apply sizeOf_pos_of_not_scc
          exact hbk i s1 hsi
        set d := max s1 s2 with hd
        have hd1 : s1 ≤ d := le_max_left _ _
        have hd2 : d < s1 + sizeOf (rcOf ids i) := by omega
        have hd3 : s2 ≤ d := le_max_right _ _
        have hd4 : d < s2 + sizeOf (rcOf ids j) := by omega
        have hjdin : j ∈ st.2.1.getD d [] :=
          hcov i s1 hsi d hd1 hd2 j hj
        have := (hchk (d - s2) (by omega)).1
        rw [show s2 + (d - s2) = d by omega] at this
        exact this hjdin
      · rw [hgetD_eq i s1 hii] at hsi
        rw [hgetD_eq j s2 hjj] at hsj
        exact hdis i j s1 s2 hne hj hi hsi hsj
    · -- StraddleOK
      intro i s hs hvg k hk
      by_cases hi : i = id
      · subst hi
        have hseq := hgetD_id s hs
        subst hseq
        exact (hchk k hk).2 (by rw [← hcls, hvg])
      · rw [hgetD_eq i s hi] at hs
        exact hstr i s hs hvg k hk
    · -- BankOK
      intro i s hs
      by_cases hi : i = id
      · subst hi
        rw [hcls]
        exact hbank
      · rw [hgetD_eq i s hi] at hs
        exact hbk i s hs


/-- Helper: a whole coloring pass preserves the invariants. -/
theorem color_pass_inv (ids : List SpillInfo) (bank : RegType)
    (slot_idx : Nat) (assigned : List (Option Nat)) (si : List (List Nat))
    (hbank : bank ≠ RegType.scc)
    (hinv : ColorInv ids assigned si) :
    ColorInv ids (color_pass ids bank slot_idx assigned si).1
      (color_pass ids bank slot_idx assigned si).2.1 := by
  unfold color_pass
  suffices hgen : ∀ (l : List Nat)
      (st : List (Option Nat) × List (List Nat) × Bool),
      ColorInv ids st.1 st.2.1 →
      ColorInv ids (l.foldl (color_step ids bank slot_idx) st).1
        (l.foldl (color_step ids bank slot_idx) st).2.1 by
    exact hgen (List.range ids.length) (assigned, si, true) hinv
  intro l
  induction l with
  | nil => intro st h; exact h
  | cons a rest ih =>
    intro st h
    exact ih _ (color_step_inv ids bank slot_idx st a hbank h)

/-- Helper: unfolding one iteration of the coloring loop. -/
theorem color_loop_succ (ids : List SpillInfo) (bank : RegType)
    (fuel slot_idx : Nat) (assigned : List (Option Nat))
    (si : List (List Nat)) :
    color_loop ids bank (fuel + 1) slot_idx assigned si =
      if (color_pass ids bank slot_idx assigned si).2.2 then
        ((color_pass ids bank slot_idx assigned si).1,
         (color_pass ids bank slot_idx assigned si).2.1)
      else
        color_loop ids bank fuel (slot_idx + 1)
          (color_pass ids bank slot_idx assigned si).1
          (color_pass ids bank slot_idx assigned si).2.1 := rfl

/-- Helper: the fuel-bounded coloring loop preserves the invariants. -/
theorem color_loop_inv (ids : List SpillInfo) (bank : RegType)
    (hbank : bank ≠ RegType.scc) :
    ∀ (fuel slot_idx : Nat) (assigned : List (Option Nat))
      (si : List (List Nat)),
      ColorInv ids assigned si →
      ColorInv ids (color_loop ids bank fuel slot_idx assigned si).1
        (color_loop ids bank fuel slot_idx assigned si).2 := by
  intro fuel
  induction fuel with
  | zero => intro slot_idx assigned si h; exact h
  | succ fuel ih =>
    intro slot_idx assigned si h
    rw [color_loop_succ]
    have hp := color_pass_inv ids bank slot_idx assigned si hbank h
    by_cases hb : (color_pass ids bank slot_idx assigned si).2.2
    · rw [if_pos hb]
      exact hp
    · rw [if_neg hb]
      exact ih _ _ _ hp

/-- C4 (amended): after spill-slot assignment, ids recorded as interfering
(the spiller records every interference in both directions) get disjoint
slot ranges, and every assigned spill id of vector register class gets a
range that never straddles a 64-slot linear-vgpr boundary.  The claim's
no-straddle guarantee holds for vector-class spill ids (the code's vgpr
coloring loop), not for the scalar-class ids whose payload the rewrite
actually stores in linear-vgprs — see the counterexample. -/
theorem c4_slot_coloring (ids : List SpillInfo) (fuel : Nat) :
    DisjointOK ids (assign_spill_slots ids fuel).1 ∧
    (∀ i s, (assign_spill_slots ids fuel).1.getD i none = some s →
      typeOf (rcOf ids i) = RegType.vgpr →
      s / 64 = (s + sizeOf (rcOf ids i) - 1) / 64) := by
  have h0 : ColorInv ids (List.replicate ids.length none) [] := by
    refine ⟨?_, ?_, ?_, ?_⟩
    · intro i s hs
      rw [replicate_none_getD] at hs
      cases hs
    · intro i j s1 s2 _ _ _ hsi _
      rw [replicate_none_getD] at hsi
      cases hsi
    · intro i s hs
      rw [replicate_none_getD] at hs
      cases hs
    · intro i s hs
      rw [replicate_none_getD] at hs
      cases hs
  have h1 := color_loop_inv ids RegType.sgpr (by simp) fuel 0
    (List.replicate ids.length none) [] h0
  have h2 := color_loop_inv ids RegType.vgpr (by simp) fuel 0
    (color_loop ids RegType.sgpr fuel 0 (List.replicate ids.length none) []).1
    (color_loop ids RegType.sgpr fuel 0 (List.replicate ids.length none) []).2
    h1
  obtain ⟨hcov, hdis, hstr, hbk⟩ := h2
  constructor
  · exact hdis
  · intro i s hs hvg
    have hsz : 1 ≤ sizeOf (rcOf ids i) := by
      apply sizeOf_pos_of_not_scc
      rw [hvg]
      simp
    have := hstr i s hs hvg (sizeOf (rcOf ids i) - 1) (by omega)
    rw [show s + (sizeOf (rcOf ids i) - 1) = s + sizeOf (rcOf ids i) - 1
      by omega] at this
    exact this.symm

/-- Witness for C4 (amended): two mutually interfering s1 spill ids get
the disjoint slots 0 and 1. -/
theorem c4_slot_coloring_witness :
    0 + sizeOf (rcOf [⟨RegClass.s1, [1]⟩, ⟨RegClass.s1, [0]⟩] 0) ≤ 1 ∨
    1 + sizeOf (rcOf [⟨RegClass.s1, [1]⟩, ⟨RegClass.s1, [0]⟩] 1) ≤ 0 :=
  (c4_slot_coloring [⟨RegClass.s1, [1]⟩, ⟨RegClass.s1, [0]⟩] 5).1 0 1 0 1
    (by decide) (by decide) (by decide) (by decide) (by decide)

/-- C4 as stated is false on the code: in this interference context the
multi-dword sgpr spill id 7 — an id whose payload the rewrite stores in
linear-vgpr storage (`sgpr_slot` entries become `vgpr_spill_temps[slot/64]`
plus `slot % 64`) — is assigned slot 63, so its two-dword range [63, 65)
straddles the 64-slot linear-vgpr boundary: the sgpr coloring loop has no
boundary check. -/
theorem c4_counterexample :
    ¬ (DisjointOK exSpillIds (assign_spill_slots exSpillIds 100).1 ∧
       (∀ i s, (assign_spill_slots exSpillIds 100).1.getD i none = some s →
         typeOf (rcOf exSpillIds i) = RegType.sgpr →
         2 ≤ sizeOf (rcOf exSpillIds i) →
         s / 64 = (s + sizeOf (rcOf exSpillIds i) - 1) / 64)) := by
  rintro ⟨_, hb⟩
  exact absurd (hb 7 63 (by decide) (by decide) (by decide)) (by decide)

/-- C2: `register_allocation` picks `(max_sgpr, max_vgpr)` as the smallest
table entry fitting both demands — the first six entries are
{(46,24), (54,28), (62,32), (70,36), (78,40), (94,48)}, and the fallback has
max_sgpr 100 with max_vgpr at most 256 and at least the vector demand —
and records `num_sgprs = max_sgpr + 2`, `num_vgprs = max_vgpr`; for scalar
demand 30 and vector demand 20 this gives `num_sgprs = 48`,
`num_vgprs = 24`. -/
theorem c2_register_allocation_table (s v : Nat) (hv : v ≤ 256) (hs : s ≤ 100) :
    (∀ e, specSmallestFit s v = some e → register_allocation_bounds s v = e) ∧
    (specSmallestFit s v = none →
      (register_allocation_bounds s v).1 = 100 ∧
      v ≤ (register_allocation_bounds s v).2 ∧
      (register_allocation_bounds s v).2 ≤ 256) ∧
    register_allocation_config s v =
      ((register_allocation_bounds s v).1 + 2,
       (register_allocation_bounds s v).2) ∧
    register_allocation_config 30 20 = (48, 24) := by
  refine ⟨?_, ?_, rfl, by decide⟩
  · intro e he
    rw [specSmallestFit_eq] at he
    unfold register_allocation_bounds
    split_ifs at he ⊢
    all_goals cases he
    all_goals rfl
  · intro hnone
    rw [specSmallestFit_eq] at hnone
    unfold register_allocation_bounds
    split_ifs at hnone ⊢
    all_goals try cases hnone
    all_goals exact ⟨rfl, by omega, by omega⟩

/-- Witness for C2 at scalar demand 30, vector demand 20: the first table
entry (46,24) fits and is chosen. -/
theorem c2_register_allocation_table_witness :
    register_allocation_bounds 30 20 = (46, 24) ∧
    register_allocation_config 30 20 = (48, 24) :=
  ⟨(c2_register_allocation_table 30 20 (by decide) (by decide)).1 (46, 24)
      (by decide),
   (c2_register_allocation_table 30 20 (by decide) (by decide)).2.2.2⟩

/-- Helper: low-two-bit masking is rounding down to a multiple of 4, on the
range the occupancy derivation uses. -/
theorem mask4small : ∀ x < 260, x &&& 0xFFFC = 4 * (x / 4) := by decide

/-- Helper: low-three-bit masking is rounding down to a multiple of 8, on the
range the occupancy derivation uses. -/
theorem mask8small : ∀ x < 112, x &&& 0xFFF8 = 8 * (x / 8) := by decide

/-- Helper: the chip class selects either (512 total scalar registers,
max-addressable index 104) or (800, 102). -/
theorem chip_cases (chip : ChipClass) :
    (total_sgpr_regs chip = 512 ∧ max_addressible_sgpr chip = 104) ∨
    (total_sgpr_regs chip = 800 ∧ max_addressible_sgpr chip = 102) := by
  rcases chip <;> simp [total_sgpr_regs, max_addressible_sgpr, ChipClass.rank]

/-- Helper: clamping the rounded scalar demand to the max-addressable index
never changes the wave quotient (800/104 = 800/102 = 7 in the one clamped
case). -/
theorem div_round8_clamp (total maxA s2 : Nat)
    (hcase : (total = 512 ∧ maxA = 104) ∨ (total = 800 ∧ maxA = 102))
    (hs : s2 ≤ maxA) :
    total / min (8 * ((s2 + 7) / 8)) maxA = total / (8 * ((s2 + 7) / 8)) := by
  rcases hcase with ⟨ht, hm⟩ | ⟨ht, hm⟩ <;> subst ht <;> subst hm
  · rw [min_eq_left (by omega)]
  · rcases le_or_lt (8 * ((s2 + 7) / 8)) 102 with h | h
    · rw [min_eq_left h]
    · have h104 : 8 * ((s2 + 7) / 8) = 104 := by omega
      rw [h104]
      norm_num

/-- C3: when the demand fits the hardware limits (vector at most 256 and
scalar demand plus the VCC pair at most the max-addressable index), the
recorded `num_waves` is `min(10, 256 / round4(v), total_sgprs / round8(s+2))`
with round4/round8 rounding up to multiples of 4 and 8, and the chip class
selecting totals (512, 104) or (800, 102).  A zero vector demand is excluded
as it would make the claimed quotient division by zero. -/
theorem c3_num_waves (chip : ChipClass) (s v : Nat)
    (hv : v ≤ 256) (hs : s + 2 ≤ max_addressible_sgpr chip) (hv0 : 0 < v) :
    (live_var_analysis_occupancy chip s v).num_waves =
      min 10 (min (256 / (4 * ((v + 3) / 4)))
                  (total_sgpr_regs chip / (8 * ((s + 2 + 7) / 8)))) ∧
    ((total_sgpr_regs chip = 512 ∧ max_addressible_sgpr chip = 104) ∨
     (total_sgpr_regs chip = 800 ∧ max_addressible_sgpr chip = 102)) := by
  refine ⟨?_, chip_cases chip⟩
  have hcond : ¬ (256 < v ∨ max_addressible_sgpr chip < s + 2) := by omega
  have hrv : rounded_vgpr_demand v = 4 * ((v + 3) / 4) := by
    unfold rounded_vgpr_demand
    rw [mask4small (v + 3) (by omega)]
    omega
  have hsmall : s + 2 + 7 < 112 := by
    rcases chip_cases chip with ⟨_, hm⟩ | ⟨_, hm⟩ <;> omega
  have hrs : rounded_sgpr_demand chip (s + 2) =
      min (8 * ((s + 2 + 7) / 8)) (max_addressible_sgpr chip) := by
    unfold rounded_sgpr_demand
    rw [mask8small (s + 2 + 7) hsmall]
    omega
  have hdiv : total_sgpr_regs chip / rounded_sgpr_demand chip (s + 2) =
      total_sgpr_regs chip / (8 * ((s + 2 + 7) / 8)) := by
    rw [hrs]
    exact div_round8_clamp _ _ _ (chip_cases chip) hs
  unfold live_var_analysis_occupancy
  rw [if_neg hcond]
  simp only [hrv, hdiv]

/-- Witness for C3 on VI with scalar demand 30 and vector demand 20:
ten waves. -/
theorem c3_num_waves_witness :
    (live_var_analysis_occupancy ChipClass.VI 30 20).num_waves =
      min 10 (min (256 / (4 * ((20 + 3) / 4)))
                  (total_sgpr_regs ChipClass.VI / (8 * ((30 + 2 + 7) / 8)))) :=
  (c3_num_waves ChipClass.VI 30 20 (by decide) (by decide) (by decide)).1

/-- C6: when the vector demand exceeds 256, or the scalar demand (with the
VCC pair added) exceeds the max-addressable scalar index, the liveness pass
records `num_waves = 0` on the program rather than aborting. -/
theorem c6_resource_exhaustion (chip : ChipClass) (s v : Nat)
    (h : 256 < v ∨ max_addressible_sgpr chip < s + 2) :
    (live_var_analysis_occupancy chip s v).num_waves = 0 := by
  unfold live_var_analysis_occupancy
  rw [if_pos h]

/-- Witness for C6: vector demand 300 on VI exceeds 256 and yields
`num_waves = 0`. -/
theorem c6_resource_exhaustion_witness :
    (live_var_analysis_occupancy ChipClass.VI 10 300).num_waves = 0 :=
  c6_resource_exhaustion ChipClass.VI 10 300 (Or.inl (by decide))

/-- C10: a shader whose stage is not fragment makes `aco_compile_shader`
return at once: no pipeline pass runs and the output structures are left
untouched. -/
theorem c10_only_fragment_compiled {α : Type} (pipeline : α → α)
    (stage : ShaderStage) (outs : α) (h : stage ≠ ShaderStage.fragment) :
    aco_compile_shader pipeline stage outs = (outs, []) := by
  unfold aco_compile_shader
  rw [if_neg h]

/-- Witness for C10 at a vertex shader with the identity pipeline. -/
theorem c10_only_fragment_compiled_witness :
    aco_compile_shader (fun n => n + 1) ShaderStage.vertex 7 = (7, []) :=
  c10_only_fragment_compiled (fun n => n + 1) ShaderStage.vertex 7
    (by decide)

/-- Helper: a list with no `p_logical_end` in it scans to `none`. -/
theorem find_last_logical_end_none (B : List BInstr)
    (hB : B.all (fun w => !isLogicalEnd w) = true) :
    find_last_logical_end B = none := by
  induction B with
  | nil => rfl
  | cons b rest ih =>
    simp only [List.all_cons, Bool.and_eq_true, Bool.not_eq_true'] at hB
    simp [find_last_logical_end, ih hB.2, hB.1]

/-- Helper: with no `p_logical_end` after it, the last one of
`A ++ p_logical_end :: B` sits at index `A.length`. -/
theorem find_last_logical_end_append (A B : List BInstr)
    (hB : B.all (fun w => !isLogicalEnd w) = true) :
    find_last_logical_end (A ++ BInstr.logicalEnd :: B) = some A.length := by
  induction A with
  | nil => simp [find_last_logical_end, find_last_logical_end_none B hB,
      isLogicalEnd]
  | cons a rest ih => simp [find_last_logical_end, ih]

/-- Helper: `insert_before_logical_end` places the instruction directly in
front of the block's last `p_logical_end`. -/
theorem insert_before_logical_end_append (A B : List BInstr) (x : BInstr)
    (hB : B.all (fun w => !isLogicalEnd w) = true) :
    insert_before_logical_end (A ++ BInstr.logicalEnd :: B) x =
      A ++ x :: BInstr.logicalEnd :: B := by
  unfold insert_before_logical_end
  rw [find_last_logical_end_append A B hB]
  dsimp only
  rw [List.take_left, List.drop_left]
  simp

/-- Helper: `modifyInstrs` keeps the id allocator. -/
theorem modifyInstrs_nextId (p : BProgram) (b : Nat)
    (f : List BInstr → List BInstr) :
    (modifyInstrs p b f).nextId = p.nextId := rfl

/-- Helper: inserting before the logical end through `modifyInstrs`,
written out on a block of known shape. -/
theorem modifyInstrs_insert (p : BProgram) (b : Nat) (blk : BBlock)
    (A B : List BInstr) (x : BInstr)
    (hblk : p.blocks.getD b defaultBBlock = blk)
    (hshape : blk.instructions = A ++ BInstr.logicalEnd :: B)
    (hB : B.all (fun w => !isLogicalEnd w) = true) :
    modifyInstrs p b (fun l => insert_before_logical_end l x) =
      ⟨p.blocks.set b
        { blk with instructions := A ++ x :: BInstr.logicalEnd :: B },
        p.nextId⟩ := by
  unfold modifyInstrs
  dsimp only
  rw [hblk, hshape, insert_before_logical_end_append A B x hB]

/-- C5 counterexample to the claim as stated: lowering the divergent
boolean phi of `exBoolProg` — incoming temps 1 and 2, both already in
64-bit mask form — does not give every logical predecessor edge the
AND-NOT/OR EXEC blend: on the edge from the entry block, where the running
accumulator is still undefined, the pass inserts a plain `s_mov_b64` of
the incoming value and no `s_andn2_b64`/`s_or_b64` at all. -/
theorem c5_counterexample :
    ¬ ((lower_divergent_bool_phi 8 exBoolProg 2 exBoolOps
          ⟨3, RegClass.s2⟩).all
        (fun r =>
          (exBoolProg.blocks.getD 2 defaultBBlock).logical_preds.all
            (fun p => hasBlend
              (r.1.blocks.getD p defaultBBlock).instructions)) = true) := by
  decide

/-- Helper: the accumulator-update tail inserts, directly in front of the
predecessor block's last `p_logical_end`, the EXEC blend
`new_cur = (cur AND-NOT EXEC) OR (phi_src AND EXEC)` when the running
accumulator is defined, and only a plain `s_mov_b64` of the mask-form
incoming value when it is still undefined. -/
theorem lower_tail_blend (fuel : Nat) (mat : BProgram) (st : SsaState)
    (pred : Nat) (phi_src new_cur : Temp) (cur : Operand)
    (p1 p2 : BProgram) (st1 st2 : SsaState) (A B : List BInstr)
    (blk : BBlock)
    (hget : get_ssa fuel mat st pred = some (p1, st1, cur))
    (hwrite : write_ssa fuel p1 st1 pred cur.tempId = some (p2, st2, new_cur))
    (hblk : p2.blocks.getD pred defaultBBlock = blk)
    (hshape : blk.instructions = A ++ BInstr.logicalEnd :: B)
    (hB : B.all (fun w => !isLogicalEnd w) = true)
    (hlen : pred < p2.blocks.length) :
    lower_bool_phi_tail fuel mat st pred phi_src =
      some (⟨p2.blocks.set pred
          { blk with instructions :=
              A ++ (if cur.isUndefined then
                      [BInstr.sMovB64 new_cur (Operand.ofTemp phi_src)]
                    else
                      [BInstr.sAndn2B64 ⟨p2.nextId, RegClass.s2⟩
                         (p2.nextId + 1) cur
                         (Operand.ofReg execReg RegClass.s2),
                       BInstr.sAndB64 ⟨p2.nextId + 2, RegClass.s2⟩
                         (p2.nextId + 3) (Operand.ofTemp phi_src)
                         (Operand.ofReg execReg RegClass.s2),
                       BInstr.sOrB64 new_cur (p2.nextId + 4)
                         (Operand.ofTemp ⟨p2.nextId, RegClass.s2⟩)
                         (Operand.ofTemp ⟨p2.nextId + 2, RegClass.s2⟩)]) ++
                BInstr.logicalEnd :: B },
        p2.nextId + (if cur.isUndefined then 0 else 5)⟩, st2) := by
  unfold lower_bool_phi_tail
  rw [hget]
  dsimp only [modifyInstrs_nextId]
  rw [hwrite]
  dsimp only [modifyInstrs_nextId]
  cases hcu : cur.isUndefined with
  | true =>
    have htt : (true = true) := rfl
    simp only [if_pos htt]
    rw [modifyInstrs_insert p2 pred blk A B
      (BInstr.sMovB64 new_cur (Operand.ofTemp phi_src)) hblk hshape hB]
    simp
  | false =>
    have hff : ¬ ((false : Bool) = true) := by decide
    simp only [if_neg hff]
    rw [modifyInstrs_insert ⟨p2.blocks, p2.nextId + 2⟩ pred blk A B
      (BInstr.sAndn2B64 ⟨p2.nextId, RegClass.s2⟩ (p2.nextId + 1) cur
        (Operand.ofReg execReg RegClass.s2)) hblk hshape hB]
    dsimp only
    rw [modifyInstrs_insert
      ⟨p2.blocks.set pred
        { blk with instructions :=
            (A ++ BInstr.sAndn2B64 ⟨p2.nextId, RegClass.s2⟩ (p2.nextId + 1)
              cur (Operand.ofReg execReg RegClass.s2) ::
              BInstr.logicalEnd :: B) },
        p2.nextId + 2 + 2⟩ pred
      { blk with instructions :=
          (A ++ BInstr.sAndn2B64 ⟨p2.nextId, RegClass.s2⟩ (p2.nextId + 1)
            cur (Operand.ofReg execReg RegClass.s2) ::
            BInstr.logicalEnd :: B) }
      (A ++ [BInstr.sAndn2B64 ⟨p2.nextId, RegClass.s2⟩ (p2.nextId + 1)
        cur (Operand.ofReg execReg RegClass.s2)]) B
      (BInstr.sAndB64 ⟨p2.nextId + 2, RegClass.s2⟩ (p2.nextId + 2 + 1)
        (Operand.ofTemp phi_src) (Operand.ofReg execReg RegClass.s2))
      (listSet_getD_self p2.blocks pred _ defaultBBlock hlen)
      (by simp) hB]
    dsimp only
    rw [modifyInstrs_insert
      ⟨(p2.blocks.set pred
          { blk with instructions :=
              (A ++ BInstr.sAndn2B64 ⟨p2.nextId, RegClass.s2⟩ (p2.nextId + 1)
                cur (Operand.ofReg execReg RegClass.s2) ::
                BInstr.logicalEnd :: B) }).set pred
        { blk with instructions :=
            ((A ++ [BInstr.sAndn2B64 ⟨p2.nextId, RegClass.s2⟩ (p2.nextId + 1)
              cur (Operand.ofReg execReg RegClass.s2)]) ++
              BInstr.sAndB64 ⟨p2.nextId + 2, RegClass.s2⟩ (p2.nextId + 2 + 1)
                (Operand.ofTemp phi_src) (Operand.ofReg execReg RegClass.s2) ::
              BInstr.logicalEnd :: B) },
        p2.nextId + 2 + 2 + 1⟩ pred
      { blk with instructions :=
          ((A ++ [BInstr.sAndn2B64 ⟨p2.nextId, RegClass.s2⟩ (p2.nextId + 1)
            cur (Operand.ofReg execReg RegClass.s2)]) ++
            BInstr.sAndB64 ⟨p2.nextId + 2, RegClass.s2⟩ (p2.nextId + 2 + 1)
              (Operand.ofTemp phi_src) (Operand.ofReg execReg RegClass.s2) ::
            BInstr.logicalEnd :: B) }
      ((A ++ [BInstr.sAndn2B64 ⟨p2.nextId, RegClass.s2⟩ (p2.nextId + 1)
        cur (Operand.ofReg execReg RegClass.s2)]) ++
        [BInstr.sAndB64 ⟨p2.nextId + 2, RegClass.s2⟩ (p2.nextId + 2 + 1)
          (Operand.ofTemp phi_src) (Operand.ofReg execReg RegClass.s2)]) B
      (BInstr.sOrB64 new_cur (p2.nextId + 2 + 2)
        (Operand.ofTemp ⟨p2.nextId, RegClass.s2⟩)
        (Operand.ofTemp ⟨p2.nextId + 2, RegClass.s2⟩))
      (listSet_getD_self _ pred _ defaultBBlock (by simpa using hlen))
      (by simp) hB]
    simp [List.set_set, Nat.add_assoc]

/-- C5 (amended): for every logical predecessor edge of a divergent
boolean phi, `lower_bool_phi_edge` first materializes a 1-bit (s1,
SCC-style) incoming operand into 64-bit mask form through an
`s_cselect_b64` inserted before the predecessor's last `p_logical_end` —
operand 0 the all-ones constant, operand 1 zero, operand 2 the incoming
temp pinned to SCC, defining a fresh s2 temp — while an already-mask-form
s2 operand passes through unchanged; it then reads the running
accumulator with `get_ssa`, allocates its new value with `write_ssa`, and
inserts, directly in front of the predecessor's last `p_logical_end`, the
EXEC blend `new_cur = (cur AND-NOT EXEC) OR (phi_src AND EXEC)` — an
`s_andn2_b64` of the old accumulator with EXEC, an `s_and_b64` of the
mask-form incoming value with EXEC and an `s_or_b64` of the two
temporaries — when the accumulator is defined, but only a plain
`s_mov_b64` of the mask-form incoming value when the accumulator is still
undefined on that path. -/
theorem c5_blend_insertion (fuel : Nat) (prog : BProgram) (st : SsaState)
    (blockIdx i pred : Nat) (src phi_src new_cur : Temp) (cur : Operand)
    (mat p1 p2 : BProgram) (st1 st2 : SsaState) (A B : List BInstr)
    (blk : BBlock)
    (hpred : (prog.blocks.getD blockIdx defaultBBlock).logical_preds.getD
      i 0 = pred)
    (hrc : src.rc = RegClass.s1 ∨ src.rc = RegClass.s2)
    (hmat1 : src.rc = RegClass.s1 →
      phi_src = ⟨prog.nextId, RegClass.s2⟩ ∧
      mat = modifyInstrs { prog with nextId := prog.nextId + 1 } pred
        (fun l => insert_before_logical_end l
          (BInstr.sCselectB64 ⟨prog.nextId, RegClass.s2⟩
            (Operand.ofConst 4294967295) (Operand.ofConst 0) src)))
    (hmat2 : src.rc = RegClass.s2 → phi_src = src ∧ mat = prog)
    (hget : get_ssa fuel mat st pred = some (p1, st1, cur))
    (hwrite : write_ssa fuel p1 st1 pred cur.tempId = some (p2, st2, new_cur))
    (hblk : p2.blocks.getD pred defaultBBlock = blk)
    (hshape : blk.instructions = A ++ BInstr.logicalEnd :: B)
    (hB : B.all (fun w => !isLogicalEnd w) = true)
    (hlen : pred < p2.blocks.length) :
    lower_bool_phi_edge fuel prog st blockIdx i (Operand.ofTemp src) =
      some (⟨p2.blocks.set pred
          { blk with instructions :=
              A ++ (if cur.isUndefined then
                      [BInstr.sMovB64 new_cur (Operand.ofTemp phi_src)]
                    else
                      [BInstr.sAndn2B64 ⟨p2.nextId, RegClass.s2⟩
                         (p2.nextId + 1) cur
                         (Operand.ofReg execReg RegClass.s2),
                       BInstr.sAndB64 ⟨p2.nextId + 2, RegClass.s2⟩
                         (p2.nextId + 3) (Operand.ofTemp phi_src)
                         (Operand.ofReg execReg RegClass.s2),
                       BInstr.sOrB64 new_cur (p2.nextId + 4)
                         (Operand.ofTemp ⟨p2.nextId, RegClass.s2⟩)
                         (Operand.ofTemp ⟨p2.nextId + 2, RegClass.s2⟩)]) ++
                BInstr.logicalEnd :: B },
        p2.nextId + (if cur.isUndefined then 0 else 5)⟩, st2) := by
  unfold lower_bool_phi_edge
  dsimp only [Operand.getTemp]
  rw [hpred]
  rcases hrc with h1 | h2
  · obtain ⟨hps, hm⟩ := hmat1 h1
    rw [h1, if_pos rfl]
    dsimp only
    rw [← hm, ← hps]
    exact lower_tail_blend fuel mat st pred phi_src new_cur cur p1 p2
      st1 st2 A B blk hget hwrite hblk hshape hB hlen
  · obtain ⟨hps, hm⟩ := hmat2 h2
    rw [h2, if_neg (by decide : ¬ (RegClass.s2 = RegClass.s1))]
    dsimp only
    rw [← hm, ← hps]
    exact lower_tail_blend fuel mat st pred phi_src new_cur cur p1 p2
      st1 st2 A B blk hget hwrite hblk hshape hB hlen

/-- Witness for C5 at a one-block program whose accumulator id 4 is
already recorded and whose incoming temp 2 is a 1-bit s1 value: the
materializing `s_cselect_b64` (all-ones versus zero under the SCC-pinned
source, fresh s2 destination 5) lands in front of the logical end, and
the blend of temps 4 (accumulator) and 5 (materialized incoming) follows
it, defining the new accumulator 6. -/
theorem c5_blend_insertion_witness :
    lower_bool_phi_edge 5 ⟨[⟨[], [], [BInstr.logicalEnd]⟩], 5⟩
      ⟨[(0, 4)], []⟩ 0 0 (Operand.ofTemp ⟨2, RegClass.s1⟩) =
    some
      (⟨[⟨[], [],
          [BInstr.sCselectB64 ⟨5, RegClass.s2⟩
             (Operand.ofConst 4294967295) (Operand.ofConst 0)
             ⟨2, RegClass.s1⟩,
           BInstr.sAndn2B64 ⟨7, RegClass.s2⟩ 8
             (Operand.ofTemp ⟨4, RegClass.s2⟩)
             (Operand.ofReg execReg RegClass.s2),
           BInstr.sAndB64 ⟨9, RegClass.s2⟩ 10
             (Operand.ofTemp ⟨5, RegClass.s2⟩)
             (Operand.ofReg execReg RegClass.s2),
           BInstr.sOrB64 ⟨6, RegClass.s2⟩ 11
             (Operand.ofTemp ⟨7, RegClass.s2⟩)
             (Operand.ofTemp ⟨9, RegClass.s2⟩),
           BInstr.logicalEnd]⟩], 12⟩,
        (⟨[(0, 6)], []⟩ : SsaState)) := by
  have h := c5_blend_insertion 5 ⟨[⟨[], [], [BInstr.logicalEnd]⟩], 5⟩
    ⟨[(0, 4)], []⟩ 0 0 0 ⟨2, RegClass.s1⟩ ⟨5, RegClass.s2⟩ ⟨6, RegClass.s2⟩
    (Operand.ofTemp ⟨4, RegClass.s2⟩)
    ⟨[⟨[], [],
      [BInstr.sCselectB64 ⟨5, RegClass.s2⟩
        (Operand.ofConst 4294967295) (Operand.ofConst 0) ⟨2, RegClass.s1⟩,
       BInstr.logicalEnd]⟩], 6⟩
    ⟨[⟨[], [],
      [BInstr.sCselectB64 ⟨5, RegClass.s2⟩
        (Operand.ofConst 4294967295) (Operand.ofConst 0) ⟨2, RegClass.s1⟩,
       BInstr.logicalEnd]⟩], 6⟩
    ⟨[⟨[], [],
      [BInstr.sCselectB64 ⟨5, RegClass.s2⟩
        (Operand.ofConst 4294967295) (Operand.ofConst 0) ⟨2, RegClass.s1⟩,
       BInstr.logicalEnd]⟩], 7⟩
    ⟨[(0, 4)], []⟩ ⟨[(0, 6)], []⟩
    [BInstr.sCselectB64 ⟨5, RegClass.s2⟩
      (Operand.ofConst 4294967295) (Operand.ofConst 0) ⟨2, RegClass.s1⟩]
    []
    ⟨[], [],
      [BInstr.sCselectB64 ⟨5, RegClass.s2⟩
        (Operand.ofConst 4294967295) (Operand.ofConst 0) ⟨2, RegClass.s1⟩,
       BInstr.logicalEnd]⟩
    rfl (Or.inl rfl) (fun _ => ⟨rfl, by decide⟩)
    (fun hc => absurd hc (by decide)) rfl rfl rfl rfl (by decide)
    (by decide)
  exact h

end Aco
